import Mathlib

/-!
# Value formatting and string assembly in the generated C programs

The three generated programs `example/ex_1/main.c`, `example/ex_1/copy.c` and
`example/ex_2/main.c` carry the same small runtime: one conversion function per
C type, a `_Generic` selection `__to_str`, and (in `ex_2`) string assembly by
`strcpy` followed by `strcat` into a `char[1024]` array.

The C library functions the programs call (`sprintf`, `strcpy`, `strcat`,
`fmod`, `malloc`) are embedded from their ISO C meaning, `double` arithmetic
from IEEE 754 binary64 with round-to-nearest, ties to even.

A character object is a `CBuf`: its size, the bytes stored from its start
onwards, and a flag that records whether some write went past its end.  Memory
is flat: a write that leaves the object lands on the bytes that follow it, so
the string read back through the pointer is what the C library functions
produced, and `overflow` tells whether producing it stayed inside the object.
-/

namespace Wolfram

/-! ## C strings and character objects -/

/-- The byte that terminates a C string. -/
def NUL : Char := Char.ofNat 0

/-- The C string found at the start of `mem`: the bytes before the first NUL. -/
def cstr (mem : List Char) : List Char :=
  mem.takeWhile (fun c => c != NUL)

/-- C `strlen`: the number of bytes before the first NUL. -/
def strlen (mem : List Char) : Nat :=
  (cstr mem).length

/-- A character object (array, allocation or string literal) seen through a
`char*` to its first byte.  `cap` is the size of the object in bytes, `mem` the
bytes stored from its start onwards, `overflow` records that a write reached a
byte at index `cap` or beyond. -/
structure CBuf where
  cap : Nat
  mem : List Char
  overflow : Bool
deriving DecidableEq, Repr

/-- The string a `char*` to the object designates. -/
def CBuf.text (b : CBuf) : List Char :=
  cstr b.mem

/-- Store `bytes` at offsets `off, off+1, ...`, leaving the other bytes alone. -/
def writeBytes (mem : List Char) (off : Nat) (bytes : List Char) : List Char :=
  mem.take off ++ bytes ++ mem.drop (off + bytes.length)

/-- A store of `bytes` at offset `off` of the object; the store is out of
bounds when it reaches past byte `cap - 1`. -/
def CBuf.write (b : CBuf) (off : Nat) (bytes : List Char) : CBuf :=
  { b with
    mem := writeBytes b.mem off bytes
    overflow := b.overflow || decide (b.cap < off + bytes.length) }

/-- C `malloc(n)`: a fresh object of `n` bytes, nothing stored yet. -/
def malloc (n : Nat) : CBuf :=
  ⟨n, [], false⟩

/-- A string literal: the characters followed by the terminator. -/
def strLit (s : String) : CBuf :=
  ⟨s.toList.length + 1, s.toList ++ [NUL], false⟩

/-- A local `char name[n];`: `n` bytes of indeterminate content `garbage`. -/
def charArray (n : Nat) (garbage : List Char) : CBuf :=
  ⟨n, garbage, false⟩

/-- C `strcpy(dest, src)`: copy the string at `src`, terminator included. -/
def strcpy (dest src : CBuf) : CBuf :=
  dest.write 0 (src.text ++ [NUL])

/-- C `strcat(dest, src)`: copy the string at `src`, terminator included, over
the terminator of the string at `dest`. -/
def strcat (dest src : CBuf) : CBuf :=
  dest.write (strlen dest.mem) (src.text ++ [NUL])

/-- C `sprintf(buf, fmt, ...)` once the conversion produced `out`: store the
characters and a terminator at the start of `buf`. -/
def sprintf (buf : CBuf) (out : List Char) : CBuf :=
  buf.write 0 (out ++ [NUL])

/-! ## Decimal numerals -/

/-- The character of the decimal digit `d`. -/
def digitChar (d : Nat) : Char :=
  Char.ofNat (48 + d)

/-- Decimal digits of `n`, most significant first, pushed in front of `acc`. -/
def decimalAux : Nat → Nat → List Char → List Char
  | 0, _, acc => acc
  | fuel + 1, n, acc =>
    if n < 10 then digitChar n :: acc
    else decimalAux fuel (n / 10) (digitChar (n % 10) :: acc)

/-- The decimal numeral of a natural number, without leading zeros. -/
def fmtNat (n : Nat) : List Char :=
  decimalAux (n + 1) n []

/-- The `%d` conversion of `printf`: a minus sign for a negative value, then
the decimal numeral of the magnitude. -/
def fmt_d (v : Int) : List Char :=
  if v < 0 then '-' :: fmtNat v.natAbs else fmtNat v.natAbs

/-- The value of a digit string read in base ten. -/
def decimalValue (ds : List Char) : Nat :=
  ds.foldl (fun a c => 10 * a + (c.toNat - 48)) 0

/-- Base-10 parsing of an unsigned numeral: one or more decimal digits. -/
def parseNat (ds : List Char) : Option Nat :=
  if ds ≠ [] ∧ ds.all Char.isDigit = true then some (decimalValue ds) else none

/-- Base-10 parsing of a signed integer numeral: an optional `-`, then digits. -/
def parseInt : List Char → Option Int
  | '-' :: ds => (parseNat ds).map (fun (n : Nat) => -(Int.ofNat n))
  | ds => (parseNat ds).map (fun (n : Nat) => Int.ofNat n)

/-! ## The conversion functions shared by the three programs -/

/-- Conversion of an integer value to the C type `int` (32 bits, two's
complement), as happens when it is passed for the parameter `int value`. -/
def toInt32 (n : Int) : Int :=
  (n + 2147483648) % 4294967296 - 2147483648

/-- The function `char* __int_to_str(int value)`:
`buf = malloc(32); sprintf(buf, "%d", value); return buf;` -/
def __int_to_str (value : Int) : CBuf :=
  let buf := malloc 32
  sprintf buf (fmt_d (toInt32 value))

/-- The function `char* __bool_to_str(bool value)`: `return value ? "true" : "false";` -/
def __bool_to_str (value : Bool) : CBuf :=
  if value then strLit "true" else strLit "false"

/-- The function `char* __str_to_str(char* value)`: `return value;` -/
def __str_to_str (value : CBuf) : CBuf :=
  value

/-! ## IEEE 754 binary64 values

A `double` is a sign, a significand and a binary exponent; the finite value
`finite neg m e` is `(-1)^neg * m * 2^e`.  The values a `double` can hold are
those with `m < 2^53` and `-1074 ≤ e ≤ 971` (`IsBinary64`). -/

/-- A value of the C type `double`. -/
inductive Double
  | finite (neg : Bool) (mant : Nat) (exp : Int)
  | inf (neg : Bool)
  | nan (neg : Bool)
deriving DecidableEq, Repr

namespace Double

/-- The finite values representable in binary64. -/
def IsBinary64 : Double → Prop
  | finite _ m e => m < 2 ^ 53 ∧ -1074 ≤ e ∧ e ≤ 971
  | _ => False

/-- The real number a finite `double` stands for (`0` for the others). -/
def toRat : Double → ℚ
  | finite neg m e => (if neg then -1 else 1) * (m : ℚ) * (2 : ℚ) ^ e
  | _ => 0

/-- The value is finite and a whole number. -/
def IsIntegral : Double → Prop
  | finite neg m e => ∃ z : ℤ, toRat (finite neg m e) = z
  | _ => False

/-- The quotient `n / d` rounded to the nearest integer, ties to even. -/
def roundHalfEven (n d : Nat) : Nat :=
  let q := n / d
  let r := n % d
  if d < 2 * r ∨ (2 * r = d ∧ q % 2 = 1) then q + 1 else q

/-- Number of binary digits of `m`, by halving. -/
def bitLengthAux : Nat → Nat → Nat
  | 0, _ => 0
  | fuel + 1, m => if m = 0 then 0 else bitLengthAux fuel (m / 2) + 1

/-- Number of binary digits of `m` (`0` for `0`). -/
def bitLength (m : Nat) : Nat :=
  bitLengthAux m m

/-- The binary64 value nearest to `(-1)^neg * m * 2^e`, ties to even: the
significand is cut to 53 bits (fewer below `2^-1022`), and a result of
magnitude `2^1024` or more is an infinity. -/
def round (neg : Bool) (m : Nat) (e : Int) : Double :=
  let e' : Int := max (e + (bitLength m : Int) - 53) (-1074)
  let q := roundHalfEven (m * 2 ^ (e - e').toNat) (2 ^ (e' - e).toNat)
  if q = 2 ^ 53 then
    if 971 < e' + 1 then inf neg else finite neg (2 ^ 52) (e' + 1)
  else if 971 < e' then inf neg else finite neg q e'

/-- Conversion of an `int` to `double` (exact). -/
def ofInt (n : Int) : Double :=
  finite (decide (n < 0)) n.natAbs 0

/-- The literal `1.0`. -/
def one : Double := finite false 1 0

/-- The literal `0.0`. -/
def zero : Double := finite false 0 0

/-- The NaN an invalid operation produces.  ISO C leaves its sign to the
platform (x86-64 sets the sign bit); it reaches no text, because the programs
print only `value` itself. -/
def defaultNaN : Double := nan true

/-- The product `a * b` of two `double`s, correctly rounded; a NaN operand is
the result. -/
def mul : Double → Double → Double
  | finite s1 m1 e1, finite s2 m2 e2 => round (xor s1 s2) (m1 * m2) (e1 + e2)
  | finite s1 m1 _, inf s2 => if m1 = 0 then defaultNaN else inf (xor s1 s2)
  | inf s1, finite s2 m2 _ => if m2 = 0 then defaultNaN else inf (xor s1 s2)
  | inf s1, inf s2 => inf (xor s1 s2)
  | nan s, _ => nan s
  | _, nan s => nan s

/-- C `fmod(x, y)`: the exact remainder of `x / y` with the sign of `x`; a NaN
operand is the result, an infinite `x` or a zero `y` is invalid. -/
def fmod : Double → Double → Double
  | finite s1 m1 e1, finite _ m2 e2 =>
    if m2 = 0 then defaultNaN
    else
      let e := min e1 e2
      finite s1 ((m1 * 2 ^ (e1 - e).toNat) % (m2 * 2 ^ (e2 - e).toNat)) e
  | finite s1 m1 e1, inf _ => finite s1 m1 e1
  | nan s, _ => nan s
  | _, nan s => nan s
  | inf _, _ => defaultNaN

/-- The comparison `a == b` of two `double`s: by value, the two zeros equal,
a NaN equal to nothing. -/
def eq : Double → Double → Bool
  | finite s1 m1 e1, finite s2 m2 e2 =>
    let e := min e1 e2
    let a := m1 * 2 ^ (e1 - e).toNat
    let b := m2 * 2 ^ (e2 - e).toNat
    decide (a = b) && (decide (a = 0) || s1 == s2)
  | inf s1, inf s2 => s1 == s2
  | _, _ => false

/-- The magnitude `m * 2^e` times `10^prec`, rounded to the nearest integer,
ties to even: the digits a `%.<prec>f` conversion prints. -/
def scaled (prec m : Nat) (e : Int) : Nat :=
  roundHalfEven (m * 2 ^ e.toNat * 10 ^ prec) (2 ^ (-e).toNat)

end Double

/-- Digits `ds` padded on the left with `'0'` to `p` characters. -/
def padZeros (p : Nat) (ds : List Char) : List Char :=
  List.replicate (p - ds.length) '0' ++ ds

/-- The `%.<prec>f` conversion of `printf`: the value rounded to `prec`
decimals (exactly, ties to even), written as sign, integer digits and, when
`prec` is not zero, a point and `prec` digits. -/
def fmt_f (prec : Nat) : Double → List Char
  | Double.finite neg m e =>
    let scaled := Double.scaled prec m e
    (if neg then ['-'] else []) ++ fmtNat (scaled / 10 ^ prec) ++
      (if prec = 0 then [] else '.' :: padZeros prec (fmtNat (scaled % 10 ^ prec)))
  | Double.inf neg => (if neg then ['-'] else []) ++ ['i', 'n', 'f']
  | Double.nan neg => (if neg then ['-'] else []) ++ ['n', 'a', 'n']

/-- Reading of a fixed-point decimal numeral: an optional `-`, digits, and
optionally a point followed by digits. -/
def parseDecimal (s : List Char) : Option ℚ :=
  let neg := s.head? == some '-'
  let body := if neg then s.drop 1 else s
  let ip := body.takeWhile (fun c => c != '.')
  let sign : ℚ := if neg then -1 else 1
  match parseNat ip, body.dropWhile (fun c => c != '.') with
  | some a, [] => some (sign * (a : ℚ))
  | some a, _ :: fp =>
    match parseNat fp with
    | some b => some (sign * ((a : ℚ) + (b : ℚ) / (10 : ℚ) ^ fp.length))
    | none => none
  | none, _ => none

/-- Number of characters after the first `'.'` of `s` (`0` when there is none). -/
def fractionDigits (s : List Char) : Nat :=
  ((s.dropWhile (fun c => c != '.')).drop 1).length

/-- The function `char* __nice_float_to_str(double value)` of `ex_2/main.c` and
`ex_1/copy.c` (the same text in both). -/
def __nice_float_to_str (value : Double) : CBuf :=
  let buf := malloc 32
  if Double.eq (Double.fmod value Double.one) Double.zero then
    sprintf buf (fmt_f 0 value)
  else if Double.eq (Double.fmod (Double.mul value (Double.ofInt 10)) Double.one) Double.zero then
    sprintf buf (fmt_f 1 value)
  else if Double.eq (Double.fmod (Double.mul value (Double.ofInt 100)) Double.one) Double.zero then
    sprintf buf (fmt_f 2 value)
  else
    sprintf buf (fmt_f 2 value)

/-- A value together with its C type, as `_Generic` sees the argument of
`__to_str`. -/
inductive CValue
  | int (v : Int)
  | double (v : Double)
  | bool (v : Bool)
  | charPtr (v : CBuf)
  | constCharPtr (v : CBuf)

namespace Ex1Main

/-- The function `char* __float_to_str(double value)` of `ex_1/main.c`:
`buf = malloc(32); sprintf(buf, "%f", value); return buf;`
(`%f` is `%.6f`). -/
def __float_to_str (value : Double) : CBuf :=
  let buf := malloc 32
  sprintf buf (fmt_f 6 value)

/-- The macro `__to_str(x)` of `ex_1/main.c`: a `_Generic` selection with four
associations and no `default`; `none` when no association matches the type. -/
def __to_str : CValue → Option CBuf
  | CValue.int x => some (__int_to_str x)
  | CValue.double x => some (__float_to_str x)
  | CValue.bool x => some (__bool_to_str x)
  | CValue.charPtr x => some (__str_to_str x)
  | CValue.constCharPtr _ => none

end Ex1Main

namespace Ex1Copy

/-- The function `char* __float_to_str(double value)` of `ex_1/copy.c`:
`return __nice_float_to_str(value);` -/
def __float_to_str (value : Double) : CBuf :=
  __nice_float_to_str value

/-- The macro `__to_str(x)` of `ex_1/copy.c`: a `_Generic` selection with four
associations and no `default`; `none` when no association matches the type. -/
def __to_str : CValue → Option CBuf
  | CValue.int x => some (__int_to_str x)
  | CValue.double x => some (__float_to_str x)
  | CValue.bool x => some (__bool_to_str x)
  | CValue.charPtr x => some (__str_to_str x)
  | CValue.constCharPtr _ => none

end Ex1Copy

namespace Ex2

/-- The function `char* __float_to_str(double value)` of `ex_2/main.c`:
`return __nice_float_to_str(value);` -/
def __float_to_str (value : Double) : CBuf :=
  __nice_float_to_str value

/-- The macro `__to_str(x)` of `ex_2/main.c`: a `_Generic` selection with five
associations (`const char*` too) and no `default`. -/
def __to_str : CValue → CBuf
  | CValue.int x => __int_to_str x
  | CValue.double x => __float_to_str x
  | CValue.bool x => __bool_to_str x
  | CValue.charPtr x => __str_to_str x
  | CValue.constCharPtr x => __str_to_str x

end Ex2

/-! ## String assembly (`ex_2/main.c`) -/

/-- One piece of an interpolated string: literal text, or a value to be
converted by `__to_str`. -/
inductive Fragment
  | literal (s : String)
  | computed (v : CValue)

/-- The `char*` the emitted statement passes to `strcpy` / `strcat` for a
fragment: the string literal itself, or `__to_str(value)`. -/
def Fragment.src : Fragment → CBuf
  | Fragment.literal s => strLit s
  | Fragment.computed v => Ex2.__to_str v

/-- The text a fragment stands for. -/
def Fragment.text (f : Fragment) : List Char :=
  f.src.text

/-- The statements emitted for one interpolated string, as in `main` of
`ex_2/main.c`:
`char t[1024]; t[0] = '\0'; strcpy(t, first); strcat(t, next); ...` -/
def assemble (garbage : List Char) : List Fragment → CBuf
  | [] => (charArray 1024 garbage).write 0 [NUL]
  | f :: rest =>
    rest.foldl (fun t g => strcat t g.src)
      (strcpy ((charArray 1024 garbage).write 0 [NUL]) f.src)

/-- The left-to-right concatenation of the fragments' texts. -/
def concatText (frags : List Fragment) : List Char :=
  (frags.map Fragment.text).flatten

/-- The nice-float policy as the specification words it, with three rules:
zero decimal digits when the value has zero fractional part, else one digit
when `value * 10` has zero fractional part, else two digits.  It is compared
with the four-branch `__nice_float_to_str` of the programs. -/
def niceFloatThreeRules (value : Double) : CBuf :=
  let buf := malloc 32
  if Double.eq (Double.fmod value Double.one) Double.zero then
    sprintf buf (fmt_f 0 value)
  else if Double.eq (Double.fmod (Double.mul value (Double.ofInt 10)) Double.one) Double.zero then
    sprintf buf (fmt_f 1 value)
  else
    sprintf buf (fmt_f 2 value)

/-- The array after each of the `strcat` statements for `rest`, starting from
the array `t`: `t` itself first, the final array last. -/
def strcatTrace (t : CBuf) : List Fragment → List CBuf
  | [] => [t]
  | g :: rest => t :: strcatTrace (strcat t g.src) rest

/-- The array after each statement of an assembly, in execution order: after
`t[0] = '\0'`, after the `strcpy` of the first fragment, after each `strcat`. -/
def assembleTrace (garbage : List Char) : List Fragment → List CBuf
  | [] => [(charArray 1024 garbage).write 0 [NUL]]
  | f :: rest =>
    (charArray 1024 garbage).write 0 [NUL] ::
      strcatTrace (strcpy ((charArray 1024 garbage).write 0 [NUL]) f.src) rest

/-- The bytes of the object hold a terminated string: the byte right after
the characters of its text is the NUL, and that byte lies inside the object. -/
def Terminated (t : CBuf) : Prop :=
  t.mem.get? t.text.length = some NUL ∧ t.text.length < t.cap

/-- The array stays a `char[1024]` and its flag says whether the string now in
it, with its terminator, is longer than the array. -/
def Tracked (t : CBuf) : Prop :=
  t.cap = 1024 ∧ t.overflow = decide (1024 < t.text.length + 1)

namespace Ex2

/-- The local `const char* msg = "Test";` of `main`. -/
def msg : CBuf := strLit "Test"

/-- The local `int count = 42;` of `main`. -/
def count : Int := 42

/-- The local `double pi = 3.14;` of `main`: the binary64 value nearest to 3.14,
`7070651414971679 * 2^-51`. -/
def pi : Double := Double.finite false 7070651414971679 (-51)

/-- Lines 52-55 of `main`. -/
def __temp_1 (garbage : List Char) : CBuf :=
  let t := (charArray 1024 garbage).write 0 [NUL]
  let t := strcpy t (strLit "Message: ")
  strcat t (__to_str (CValue.constCharPtr msg))

/-- Lines 57-60 of `main`. -/
def __temp_2 (garbage : List Char) : CBuf :=
  let t := (charArray 1024 garbage).write 0 [NUL]
  let t := strcpy t (strLit "Count: ")
  strcat t (__to_str (CValue.int count))

/-- Lines 62-65 of `main`. -/
def __temp_3 (garbage : List Char) : CBuf :=
  let t := (charArray 1024 garbage).write 0 [NUL]
  let t := strcpy t (strLit "Pi: ")
  strcat t (__to_str (CValue.double pi))

/-- Lines 67-74 of `main`. -/
def __temp_4 (garbage : List Char) : CBuf :=
  let t := (charArray 1024 garbage).write 0 [NUL]
  let t := strcpy t (strLit "Combined: ")
  let t := strcat t (__to_str (CValue.constCharPtr msg))
  let t := strcat t (strLit " - ")
  let t := strcat t (__to_str (CValue.int count))
  let t := strcat t (strLit " - ")
  strcat t (__to_str (CValue.double pi))

end Ex2

/-! ## Lemmas on strings and numerals -/

theorem cstr_append_nul (t rest : List Char) (h : ∀ c ∈ t, c ≠ NUL) :
    cstr (t ++ NUL :: rest) = t := by
  induction t with
  | nil => simp [cstr, List.takeWhile]
  | cons a t ih =>
    have ha : a ≠ NUL := h a (List.mem_cons_self _ _)
    have ht : ∀ c ∈ t, c ≠ NUL := fun c hc => h c (List.mem_cons_of_mem _ hc)
    have := ih ht
    have hb : (a != NUL) = true := by simpa using ha
    simp only [cstr] at this ⊢
    simp [List.takeWhile, hb, this]

theorem cstr_append_nul_left (l rest : List Char) : cstr (l ++ NUL :: rest) = cstr l := by
  induction l with
  | nil => simp [cstr, List.takeWhile]
  | cons a t ih =>
    simp only [cstr] at ih
    by_cases h : (a != NUL) = true
    · simp [cstr, List.takeWhile, h, ih]
    · have h' : (a != NUL) = false := by simpa using h
      simp [cstr, List.takeWhile, h']

theorem cstr_no_nul (mem : List Char) : ∀ c ∈ cstr mem, c ≠ NUL := by
  intro c hc
  have := List.mem_takeWhile_imp hc
  simpa using this

theorem sprintf_malloc_text (n : Nat) (out : List Char) (h : ∀ c ∈ out, c ≠ NUL) :
    (sprintf (malloc n) out).text = out := by
  simp only [sprintf, malloc, CBuf.write, CBuf.text, writeBytes, List.take_nil, List.drop_nil,
    List.nil_append, List.append_nil]
  exact cstr_append_nul out [] h

theorem digitChar_toNat (d : Nat) (h : d < 10) : (digitChar d).toNat = 48 + d := by
  interval_cases d <;> rfl

theorem digitChar_isDigit (d : Nat) (h : d < 10) : (digitChar d).isDigit = true := by
  interval_cases d <;> rfl

theorem digitChar_ne_nul (d : Nat) (h : d < 10) : digitChar d ≠ NUL := by
  interval_cases d <;> decide

theorem digitChar_eq_zero (d : Nat) (h : d < 10) (h0 : digitChar d = '0') : d = 0 := by
  interval_cases d <;> first | rfl | (exact absurd h0 (by decide))

theorem decimalAux_forall (P : Char → Prop) (hd : ∀ d, d < 10 → P (digitChar d)) :
    ∀ (fuel n : Nat) (acc : List Char), (∀ c ∈ acc, P c) →
      ∀ c ∈ decimalAux fuel n acc, P c := by
  intro fuel
  induction fuel with
  | zero => intro n acc hacc c hc; exact hacc c (by simpa [decimalAux] using hc)
  | succ fuel ih =>
    intro n acc hacc c hc
    unfold decimalAux at hc
    split at hc
    · rcases List.mem_cons.mp hc with h | h
      · exact h ▸ hd n (by assumption)
      · exact hacc c h
    · refine ih (n / 10) _ ?_ c hc
      intro c hc
      rcases List.mem_cons.mp hc with h | h
      · exact h ▸ hd _ (Nat.mod_lt _ (by decide))
      · exact hacc c h

theorem decimalAux_value :
    ∀ (fuel n : Nat) (acc : List Char), n < fuel →
      decimalValue (decimalAux fuel n acc)
        = acc.foldl (fun a c => 10 * a + (c.toNat - 48)) n := by
  intro fuel
  induction fuel with
  | zero => intro n acc h; omega
  | succ fuel ih =>
    intro n acc h
    unfold decimalAux
    split
    · rename_i hn
      simp [decimalValue, List.foldl, digitChar_toNat n hn]
    · rename_i hn
      have hlt : n / 10 < fuel := by omega
      rw [ih (n / 10) _ hlt]
      have hm : n % 10 < 10 := Nat.mod_lt _ (by decide)
      simp only [List.foldl, digitChar_toNat _ hm]
      congr 1
      omega

theorem decimalAux_head :
    ∀ (fuel n : Nat) (acc : List Char), n < fuel →
      ∃ d rest, decimalAux fuel n acc = digitChar d :: rest ∧ d < 10 ∧ (d = 0 → n = 0) := by
  intro fuel
  induction fuel with
  | zero => intro n acc h; omega
  | succ fuel ih =>
    intro n acc h
    unfold decimalAux
    split
    · rename_i hn
      exact ⟨n, acc, rfl, hn, fun h0 => h0⟩
    · rename_i hn
      obtain ⟨d, rest, he, hd, h0⟩ := ih (n / 10) (digitChar (n % 10) :: acc) (by omega)
      refine ⟨d, rest, he, hd, fun hz => ?_⟩
      have := h0 hz
      omega

theorem fmtNat_isDigit (n : Nat) : ∀ c ∈ fmtNat n, c.isDigit = true :=
  decimalAux_forall (fun c => c.isDigit = true) digitChar_isDigit _ _ []
    (fun _ h => absurd h (List.not_mem_nil _))

theorem fmtNat_ne_nul (n : Nat) : ∀ c ∈ fmtNat n, c ≠ NUL :=
  decimalAux_forall (fun c => c ≠ NUL) digitChar_ne_nul _ _ []
    (fun _ h => absurd h (List.not_mem_nil _))

theorem fmtNat_value (n : Nat) : decimalValue (fmtNat n) = n := by
  simp [fmtNat, decimalAux_value (n + 1) n [] (Nat.lt_succ_self n)]

theorem fmtNat_head (n : Nat) :
    ∃ d rest, fmtNat n = digitChar d :: rest ∧ d < 10 ∧ (d = 0 → n = 0) :=
  decimalAux_head (n + 1) n [] (Nat.lt_succ_self n)

theorem fmtNat_ne_nil (n : Nat) : fmtNat n ≠ [] := by
  obtain ⟨d, rest, he, _, _⟩ := fmtNat_head n
  simp [he]

theorem parseNat_fmtNat (n : Nat) : parseNat (fmtNat n) = some n := by
  have h1 := fmtNat_ne_nil n
  have h2 : (fmtNat n).all Char.isDigit = true := by
    rw [List.all_eq_true]; exact fmtNat_isDigit n
  simp [parseNat, h1, h2, fmtNat_value]

theorem parseInt_of_not_minus (c : Char) (ds : List Char) (hc : c ≠ '-') :
    parseInt (c :: ds) = (parseNat (c :: ds)).map (fun (n : Nat) => Int.ofNat n) := by
  unfold parseInt
  split
  · rename_i heq
    simp only [List.cons.injEq] at heq
    exact absurd heq.1 hc
  · rfl

theorem digitChar_ne_minus (d : Nat) (h : d < 10) : digitChar d ≠ '-' := by
  interval_cases d <;> decide

theorem parseInt_fmt_d (v : Int) : parseInt (fmt_d v) = some v := by
  unfold fmt_d
  split
  · rename_i hv
    have hab : -(v.natAbs : Int) = v := by
      rw [Int.ofNat_natAbs_of_nonpos (le_of_lt hv)]; simp
    simp only [parseInt, parseNat_fmtNat, Option.map_some', Int.ofNat_eq_coe, hab]
  · rename_i hv
    obtain ⟨d, rest, he, hd, _⟩ := fmtNat_head v.natAbs
    have hp := parseNat_fmtNat v.natAbs
    rw [he] at hp ⊢
    have hab : (v.natAbs : Int) = v := Int.natAbs_of_nonneg (not_lt.mp hv)
    rw [parseInt_of_not_minus _ _ (digitChar_ne_minus d hd), hp]
    simp only [Option.map_some', Int.ofNat_eq_coe, hab]

theorem fmt_d_ne_nul (v : Int) : ∀ c ∈ fmt_d v, c ≠ NUL := by
  intro c hc
  unfold fmt_d at hc
  split at hc
  · rcases List.mem_cons.mp hc with h | h
    · rw [h]; decide
    · exact fmtNat_ne_nul _ c h
  · exact fmtNat_ne_nul _ c hc

theorem int_to_str_text (n : Int) : (__int_to_str n).text = fmt_d (toInt32 n) :=
  sprintf_malloc_text 32 _ (fmt_d_ne_nul _)

theorem toInt32_of_range (n : Int) (hlo : -2147483648 ≤ n) (hhi : n ≤ 2147483647) :
    toInt32 n = n := by
  unfold toInt32
  omega

/-! ## Lemmas on the character objects -/

theorem take_strlen (mem : List Char) : mem.take (strlen mem) = cstr mem := by
  induction mem with
  | nil => simp [strlen, cstr]
  | cons a t ih =>
    by_cases h : (a != NUL) = true
    · simp only [strlen, cstr, List.takeWhile, h, List.length_cons, List.take_succ_cons]
      simp only [strlen, cstr] at ih
      rw [ih]
    · have h' : (a != NUL) = false := by simpa using h
      simp [strlen, cstr, List.takeWhile, h']

theorem write_zero_text (b : CBuf) (t : List Char) (h : ∀ c ∈ t, c ≠ NUL) :
    (b.write 0 (t ++ [NUL])).text = t := by
  simp only [CBuf.write, CBuf.text, writeBytes, List.take_zero, List.nil_append,
    List.append_assoc, List.singleton_append]
  exact cstr_append_nul t _ h

theorem strcpy_text (dest src : CBuf) : (strcpy dest src).text = src.text :=
  write_zero_text dest src.text (cstr_no_nul _)

theorem strcat_text (dest src : CBuf) : (strcat dest src).text = dest.text ++ src.text := by
  simp only [strcat, CBuf.write, CBuf.text, writeBytes, take_strlen, List.append_assoc,
    List.singleton_append]
  rw [← List.append_assoc]
  apply cstr_append_nul
  intro c hc
  rcases List.mem_append.mp hc with h | h
  · exact cstr_no_nul _ c h
  · exact cstr_no_nul _ c h

theorem init_text (b : CBuf) : (b.write 0 [NUL]).text = [] := by
  have := write_zero_text b [] (fun _ h => absurd h (List.not_mem_nil _))
  simpa using this

theorem foldl_strcat_text (rest : List Fragment) :
    ∀ t : CBuf, (rest.foldl (fun t g => strcat t g.src) t).text = t.text ++ concatText rest := by
  induction rest with
  | nil => intro t; simp [concatText]
  | cons g rest ih =>
    intro t
    simp only [List.foldl_cons, ih, strcat_text, concatText, List.map_cons, List.flatten_cons,
      Fragment.text, List.append_assoc]

theorem assemble_text_eq (garbage : List Char) (frags : List Fragment) :
    (assemble garbage frags).text = concatText frags := by
  cases frags with
  | nil => simp [assemble, init_text, concatText]
  | cons f rest =>
    simp only [assemble, foldl_strcat_text, strcpy_text, concatText, List.map_cons,
      List.flatten_cons, Fragment.text]

theorem tracked_init (garbage : List Char) :
    Tracked ((charArray 1024 garbage).write 0 [NUL]) := by
  refine ⟨rfl, ?_⟩
  rw [init_text]
  simp [CBuf.write, charArray]

theorem tracked_strcpy (t src : CBuf) (ht : Tracked t) (h0 : t.overflow = false) :
    Tracked (strcpy t src) := by
  refine ⟨ht.1, ?_⟩
  rw [strcpy_text]
  simp [strcpy, CBuf.write, h0, ht.1]

theorem tracked_strcat (t src : CBuf) (ht : Tracked t) : Tracked (strcat t src) := by
  refine ⟨ht.1, ?_⟩
  rw [strcat_text]
  have h1 := ht.1
  have h2 := ht.2
  simp only [CBuf.text] at h2
  simp only [strcat, CBuf.write, h1, h2, strlen, List.length_append, List.length_singleton,
    CBuf.text]
  rw [Bool.eq_iff_iff]
  simp only [Bool.or_eq_true, decide_eq_true_eq]
  omega

theorem tracked_foldl (rest : List Fragment) :
    ∀ t : CBuf, Tracked t → Tracked (rest.foldl (fun t g => strcat t g.src) t) := by
  induction rest with
  | nil => intro t ht; exact ht
  | cons g rest ih => intro t ht; exact ih _ (tracked_strcat t g.src ht)

theorem tracked_assemble (garbage : List Char) (frags : List Fragment) :
    Tracked (assemble garbage frags) := by
  cases frags with
  | nil => exact tracked_init garbage
  | cons f rest =>
    refine tracked_foldl rest _ (tracked_strcpy _ _ (tracked_init garbage) ?_)
    simp [CBuf.write, charArray]

theorem assemble_overflow_eq (garbage : List Char) (frags : List Fragment) :
    (assemble garbage frags).overflow = decide (1024 < (concatText frags).length + 1) := by
  rw [(tracked_assemble garbage frags).2, assemble_text_eq]

/-! ## Lemmas on splitting at the decimal point -/

theorem takeWhile_append_stop (p : Char → Bool) (pre rest : List Char) (x : Char)
    (h : ∀ c ∈ pre, p c = true) (hx : p x = false) :
    (pre ++ x :: rest).takeWhile p = pre := by
  induction pre with
  | nil => simp [List.takeWhile, hx]
  | cons a t ih =>
    have ha := h a (List.mem_cons_self _ _)
    have ht := ih (fun c hc => h c (List.mem_cons_of_mem _ hc))
    simp [List.takeWhile, ha, ht]

theorem dropWhile_append_stop (p : Char → Bool) (pre rest : List Char) (x : Char)
    (h : ∀ c ∈ pre, p c = true) (hx : p x = false) :
    (pre ++ x :: rest).dropWhile p = x :: rest := by
  induction pre with
  | nil => simp [List.dropWhile, hx]
  | cons a t ih =>
    have ha := h a (List.mem_cons_self _ _)
    have ht := ih (fun c hc => h c (List.mem_cons_of_mem _ hc))
    simp [List.dropWhile, ha, ht]

theorem takeWhile_all (p : Char → Bool) (l : List Char) (h : ∀ c ∈ l, p c = true) :
    l.takeWhile p = l := by
  induction l with
  | nil => rfl
  | cons a t ih =>
    have ha := h a (List.mem_cons_self _ _)
    have ht := ih (fun c hc => h c (List.mem_cons_of_mem _ hc))
    simp [List.takeWhile, ha, ht]

theorem isDigit_ne_point (c : Char) (h : c.isDigit = true) : (c != '.') = true := by
  have : c ≠ '.' := by
    intro hc; subst hc; exact absurd h (by decide)
  simpa using this

theorem isDigit_ne_nul (c : Char) (h : c.isDigit = true) : c ≠ NUL := by
  intro hc; subst hc; exact absurd h (by decide)

theorem fractionDigits_of_point (pre frac : List Char)
    (h : ∀ c ∈ pre, (c != '.') = true) : fractionDigits (pre ++ '.' :: frac) = frac.length := by
  unfold fractionDigits
  rw [dropWhile_append_stop _ pre frac '.' h (by decide)]
  rfl

theorem fractionDigits_of_no_point (pre : List Char)
    (h : ∀ c ∈ pre, (c != '.') = true) : fractionDigits pre = 0 := by
  unfold fractionDigits
  rw [List.dropWhile_eq_nil_iff.mpr h]
  rfl

/-! ## Lemmas on the `%f` conversion -/

theorem decimalAux_length :
    ∀ (fuel n : Nat) (acc : List Char) (p : Nat), n < fuel → 0 < p → n < 10 ^ p →
      (decimalAux fuel n acc).length ≤ p + acc.length := by
  intro fuel
  induction fuel with
  | zero => intro n acc p h; omega
  | succ fuel ih =>
    intro n acc p h hp hn
    unfold decimalAux
    split
    · simp only [List.length_cons]; omega
    · rename_i h10
      have hp2 : 2 ≤ p := by
        by_contra hlt
        have : p = 1 := by omega
        subst this
        omega
      have hdiv : n / 10 < 10 ^ (p - 1) := by
        have : 10 ^ p = 10 ^ (p - 1) * 10 := by
          rw [← pow_succ]; congr 1; omega
        rw [Nat.div_lt_iff_lt_mul (by decide)]
        omega
      have := ih (n / 10) (digitChar (n % 10) :: acc) (p - 1) (by omega) (by omega) hdiv
      simp only [List.length_cons] at this
      omega

theorem fmtNat_length_le (n p : Nat) (hp : 0 < p) (hn : n < 10 ^ p) :
    (fmtNat n).length ≤ p := by
  have := decimalAux_length (n + 1) n [] p (Nat.lt_succ_self n) hp hn
  simpa [fmtNat] using this

theorem padZeros_length (p : Nat) (ds : List Char) (h : ds.length ≤ p) :
    (padZeros p ds).length = p := by
  simp only [padZeros, List.length_append, List.length_replicate]
  omega

theorem padZeros_isDigit (p : Nat) (ds : List Char) (h : ∀ c ∈ ds, c.isDigit = true) :
    ∀ c ∈ padZeros p ds, c.isDigit = true := by
  intro c hc
  rcases List.mem_append.mp hc with h1 | h1
  · rw [(List.mem_replicate.mp h1).2]; rfl
  · exact h c h1

/-- The sign characters of a `%f` conversion. -/
theorem signChars_ne (neg : Bool) (x : Char) (hx : x ≠ '-') :
    ∀ c ∈ (if neg then ['-'] else []), c ≠ x := by
  intro c hc
  cases neg
  · exact absurd hc (List.not_mem_nil _)
  · rw [if_pos rfl, List.mem_singleton] at hc
    rw [hc]; exact fun h => hx h.symm

theorem fmt_f_zero_no_point (neg : Bool) (m : Nat) (e : Int) :
    ∀ c ∈ fmt_f 0 (Double.finite neg m e), (c != '.') = true := by
  intro c hc
  simp only [fmt_f, if_pos, List.append_nil] at hc
  rcases List.mem_append.mp hc with h | h
  · have := signChars_ne neg '.' (by decide) c h
    simpa using this
  · exact isDigit_ne_point c (fmtNat_isDigit _ c h)

theorem fmt_f_succ_split (p : Nat) (neg : Bool) (m : Nat) (e : Int) :
    ∃ pre frac, fmt_f (p + 1) (Double.finite neg m e) = pre ++ '.' :: frac ∧
      (∀ c ∈ pre, (c != '.') = true) ∧ frac.length = p + 1 ∧
      (∀ c ∈ frac, c.isDigit = true) := by
  refine ⟨(if neg then ['-'] else []) ++ fmtNat (Double.scaled (p + 1) m e / 10 ^ (p + 1)),
    padZeros (p + 1) (fmtNat (Double.scaled (p + 1) m e % 10 ^ (p + 1))), ?_, ?_, ?_, ?_⟩
  · simp only [fmt_f, Nat.succ_ne_zero, if_false]
  · intro c hc
    rcases List.mem_append.mp hc with h | h
    · have := signChars_ne neg '.' (by decide) c h
      simpa using this
    · exact isDigit_ne_point c (fmtNat_isDigit _ c h)
  · apply padZeros_length
    exact fmtNat_length_le _ _ (Nat.succ_pos p) (Nat.mod_lt _ (by positivity))
  · exact padZeros_isDigit _ _ (fmtNat_isDigit _)

theorem fmt_f_ne_nul (p : Nat) (v : Double) : ∀ c ∈ fmt_f p v, c ≠ NUL := by
  intro c hc
  cases v with
  | finite neg m e =>
    simp only [fmt_f] at hc
    rcases List.mem_append.mp hc with h | h
    · rcases List.mem_append.mp h with h1 | h1
      · exact signChars_ne neg NUL (by decide) c h1
      · exact fmtNat_ne_nul _ c h1
    · split at h
      · exact absurd h (List.not_mem_nil _)
      · rcases List.mem_cons.mp h with h1 | h1
        · rw [h1]; decide
        · exact isDigit_ne_nul c (padZeros_isDigit _ _ (fmtNat_isDigit _) c h1)
  | inf neg =>
    simp only [fmt_f] at hc
    rcases List.mem_append.mp hc with h | h
    · exact signChars_ne neg NUL (by decide) c h
    · simp only [List.mem_cons, List.mem_singleton, List.not_mem_nil, or_false] at h
      rcases h with h | h | h <;> (rw [h]; decide)
  | nan neg =>
    simp only [fmt_f] at hc
    rcases List.mem_append.mp hc with h | h
    · exact signChars_ne neg NUL (by decide) c h
    · simp only [List.mem_cons, List.mem_singleton, List.not_mem_nil, or_false] at h
      rcases h with h | h | h <;> (rw [h]; decide)

/-- The test `fmod(x, 1.0) == 0.0` of `__nice_float_to_str`. -/
theorem fmod_one_test (neg : Bool) (m : Nat) (e : Int) :
    Double.eq (Double.fmod (Double.finite neg m e) Double.one) Double.zero = true
      ↔ 2 ^ (-e).toNat ∣ m * 2 ^ e.toNat := by
  rcases le_or_lt 0 e with he | he
  · have h1 : min e 0 = 0 := min_eq_right he
    have h2 : (-e).toNat = 0 := by omega
    simp [Double.fmod, Double.eq, Double.one, Double.zero, h1, h2, Nat.mod_one]
  · have h1 : min e 0 = e := min_eq_left (le_of_lt he)
    have h2 : e.toNat = 0 := by omega
    have h3 : (0 - e).toNat = (-e).toNat := by congr 1; omega
    simp only [Double.fmod, Double.eq, Double.one, Double.zero, h1, h2, h3,
      Nat.dvd_iff_mod_eq_zero, one_ne_zero, if_false, pow_zero, mul_one, one_mul, sub_self,
      Int.toNat_zero, zero_mul, Bool.and_eq_true, Bool.or_eq_true, decide_eq_true_eq,
      min_self]
    exact ⟨fun h => h.1, fun h => ⟨h, Or.inl h⟩⟩

theorem zpow_two_split (e : Int) :
    (2 : ℚ) ^ e = (2 : ℚ) ^ e.toNat / (2 : ℚ) ^ (-e).toNat := by
  rcases le_or_lt 0 e with he | he
  · have h2 : (-e).toNat = 0 := by omega
    have h3 : e = (e.toNat : ℤ) := (Int.toNat_of_nonneg he).symm
    rw [h2, pow_zero, div_one]
    conv_lhs => rw [h3]
    exact zpow_natCast _ _
  · have h2 : e.toNat = 0 := by omega
    have h3 : e = -((-e).toNat : ℤ) := by omega
    rw [h2, pow_zero, one_div]
    conv_lhs => rw [h3]
    rw [zpow_neg, zpow_natCast]

/-- The magnitude of a finite value as a quotient of two natural numbers. -/
theorem magnitude_eq_div (m : Nat) (e : Int) :
    (m : ℚ) * (2 : ℚ) ^ e = ((m * 2 ^ e.toNat : ℕ) : ℚ) / ((2 ^ (-e).toNat : ℕ) : ℚ) := by
  rw [zpow_two_split e]
  push_cast
  ring

theorem toRat_finite (neg : Bool) (m : Nat) (e : Int) :
    Double.toRat (Double.finite neg m e)
      = (if neg then -1 else 1) * (((m * 2 ^ e.toNat : ℕ) : ℚ) / ((2 ^ (-e).toNat : ℕ) : ℚ)) := by
  rw [← magnitude_eq_div]
  simp only [Double.toRat]
  ring

theorem sign_div_integral (neg : Bool) (A D : ℕ) (hD : 0 < D) :
    (∃ z : ℤ, (if neg then -1 else 1 : ℚ) * ((A : ℚ) / (D : ℚ)) = z) ↔ D ∣ A := by
  have hd : (D : ℚ) ≠ 0 := by positivity
  constructor
  · rintro ⟨z, hz⟩
    have hz' : (A : ℚ) / (D : ℚ) = (if neg then -1 else 1) * (z : ℚ) := by
      cases neg
      · simpa using hz
      · simp only [if_true] at hz ⊢
        linarith
    rw [div_eq_iff hd] at hz'
    have hq : (A : ℚ) = (((if neg then -1 else 1) * z * (D : ℤ) : ℤ) : ℚ) := by
      rw [hz']
      cases neg <;> push_cast <;> simp
    have hi : (A : ℤ) = (if neg then -1 else 1) * z * (D : ℤ) := by
      exact_mod_cast hq
    have : (D : ℤ) ∣ (A : ℤ) := ⟨(if neg then -1 else 1) * z, by rw [hi]; ring⟩
    exact Int.natCast_dvd_natCast.mp this
  · rintro ⟨j, hj⟩
    refine ⟨(if neg then -1 else 1) * (j : ℤ), ?_⟩
    rw [hj]
    push_cast
    cases neg <;> simp <;> field_simp

/-- A finite value times the natural number `c` is whole exactly when the
denominator of the value divides its numerator times `c`. -/
theorem toRat_mul_integral_iff (neg : Bool) (m : Nat) (e : Int) (c : ℕ) :
    (∃ z : ℤ, Double.toRat (Double.finite neg m e) * (c : ℚ) = z)
      ↔ 2 ^ (-e).toNat ∣ m * 2 ^ e.toNat * c := by
  rw [← sign_div_integral neg (m * 2 ^ e.toNat * c) (2 ^ (-e).toNat) (by positivity)]
  have hrw : Double.toRat (Double.finite neg m e) * (c : ℚ)
      = (if neg then -1 else 1 : ℚ)
          * (((m * 2 ^ e.toNat * c : ℕ) : ℚ) / ((2 ^ (-e).toNat : ℕ) : ℚ)) := by
    rw [toRat_finite]
    push_cast
    ring
  rw [hrw]

theorem isIntegral_iff_dvd (neg : Bool) (m : Nat) (e : Int) :
    Double.IsIntegral (Double.finite neg m e) ↔ 2 ^ (-e).toNat ∣ m * 2 ^ e.toNat := by
  have h := toRat_mul_integral_iff neg m e 1
  simp only [Nat.cast_one, mul_one] at h
  exact h

theorem isIntegral_iff_test (v : Double) :
    Double.IsIntegral v ↔ Double.eq (Double.fmod v Double.one) Double.zero = true := by
  cases v with
  | finite neg m e => rw [isIntegral_iff_dvd, fmod_one_test]
  | inf neg =>
    simp only [Double.IsIntegral, false_iff]
    simp [Double.fmod, Double.one, Double.zero, Double.defaultNaN, Double.eq]
  | nan neg =>
    simp only [Double.IsIntegral, false_iff]
    simp [Double.fmod, Double.one, Double.zero, Double.eq]

theorem nice_text_integral (v : Double) (h : Double.IsIntegral v) :
    (__nice_float_to_str v).text = fmt_f 0 v := by
  have ht := (isIntegral_iff_test v).mp h
  simp only [__nice_float_to_str, ht, if_true]
  exact sprintf_malloc_text 32 _ (fmt_f_ne_nul 0 v)

theorem nice_text_tenth (v : Double) (h : ¬ Double.IsIntegral v)
    (h10 : Double.IsIntegral (Double.mul v (Double.ofInt 10))) :
    (__nice_float_to_str v).text = fmt_f 1 v := by
  have ht : Double.eq (Double.fmod v Double.one) Double.zero = false := by
    simpa using (isIntegral_iff_test v).not.mp h
  have ht10 := (isIntegral_iff_test _).mp h10
  simp only [__nice_float_to_str, ht, ht10, if_true, if_false, Bool.false_eq_true]
  exact sprintf_malloc_text 32 _ (fmt_f_ne_nul 1 v)

theorem nice_text_hundredth (v : Double) (h : ¬ Double.IsIntegral v)
    (h10 : ¬ Double.IsIntegral (Double.mul v (Double.ofInt 10))) :
    (__nice_float_to_str v).text = fmt_f 2 v := by
  have ht : Double.eq (Double.fmod v Double.one) Double.zero = false := by
    simpa using (isIntegral_iff_test v).not.mp h
  have ht10 : Double.eq (Double.fmod (Double.mul v (Double.ofInt 10)) Double.one) Double.zero
      = false := by
    simpa using (isIntegral_iff_test _).not.mp h10
  simp only [__nice_float_to_str, ht, ht10, if_false, Bool.false_eq_true, ite_self]
  exact sprintf_malloc_text 32 _ (fmt_f_ne_nul 2 v)

/-! ## Lemmas on reading a numeral back -/

theorem decimalValue_zeros (k : Nat) (ds : List Char) :
    decimalValue (List.replicate k '0' ++ ds) = decimalValue ds := by
  induction k with
  | zero => simp
  | succ k ih =>
    simp only [decimalValue, List.replicate_succ, List.cons_append, List.foldl_cons] at ih ⊢
    have h0 : 10 * 0 + ('0'.toNat - 48) = 0 := by decide
    rw [h0]
    exact ih

theorem parseNat_padZeros (p n : Nat) (hp : 0 < p) (hn : n < 10 ^ p) :
    parseNat (padZeros p (fmtNat n)) = some n := by
  have hlen := padZeros_length p (fmtNat n) (fmtNat_length_le n p hp hn)
  have h1 : padZeros p (fmtNat n) ≠ [] := by
    intro h
    rw [h] at hlen
    simp at hlen
    omega
  have h2 : (padZeros p (fmtNat n)).all Char.isDigit = true := by
    rw [List.all_eq_true]; exact padZeros_isDigit p _ (fmtNat_isDigit n)
  have h3 : decimalValue (padZeros p (fmtNat n)) = n := by
    rw [padZeros, decimalValue_zeros, fmtNat_value]
  simp [parseNat, h1, h2, h3]

theorem parseDecimal_with_point (neg : Bool) (ip frac : List Char) (a b : Nat)
    (hne : ip ≠ []) (hd : ∀ c ∈ ip, c.isDigit = true)
    (ha : parseNat ip = some a) (hb : parseNat frac = some b) :
    parseDecimal ((if neg then ['-'] else []) ++ ip ++ '.' :: frac)
      = some ((if neg then -1 else 1) * ((a : ℚ) + (b : ℚ) / (10 : ℚ) ^ frac.length)) := by
  obtain ⟨c0, t0, hip⟩ := List.exists_cons_of_ne_nil hne
  have hc0 : c0 ≠ '-' := by
    intro h
    have := hd c0 (by rw [hip]; exact List.mem_cons_self _ _)
    rw [h] at this
    exact absurd this (by decide)
  have hp : ∀ c ∈ ip, (c != '.') = true := fun c hc => isDigit_ne_point c (hd c hc)
  have htake := takeWhile_append_stop (fun c => c != '.') ip frac '.' hp (by decide)
  have hdrop := dropWhile_append_stop (fun c => c != '.') ip frac '.' hp (by decide)
  cases neg
  · have hhead : (((ip ++ '.' :: frac).head? == some '-') = false) := by
      rw [hip]; simpa using hc0
    simp only [parseDecimal, Bool.false_eq_true, if_false, List.nil_append, hhead, htake, hdrop,
      ha, hb]
  · have hs : (if true = true then ['-'] else []) ++ ip ++ '.' :: frac
        = '-' :: (ip ++ '.' :: frac) := rfl
    have hhead : ((('-' :: (ip ++ '.' :: frac)).head? == some '-') = true) := by simp
    rw [hs]
    simp only [parseDecimal, if_true, hhead, List.drop_succ_cons, List.drop_zero, htake, hdrop,
      ha, hb]

theorem parseDecimal_no_point (neg : Bool) (ip : List Char) (a : Nat)
    (hne : ip ≠ []) (hd : ∀ c ∈ ip, c.isDigit = true) (ha : parseNat ip = some a) :
    parseDecimal ((if neg then ['-'] else []) ++ ip)
      = some ((if neg then -1 else 1) * (a : ℚ)) := by
  obtain ⟨c0, t0, hip⟩ := List.exists_cons_of_ne_nil hne
  have hc0 : c0 ≠ '-' := by
    intro h
    have := hd c0 (by rw [hip]; exact List.mem_cons_self _ _)
    rw [h] at this
    exact absurd this (by decide)
  have hp : ∀ c ∈ ip, (c != '.') = true := fun c hc => isDigit_ne_point c (hd c hc)
  have htake := takeWhile_all (fun c => c != '.') ip hp
  have hdrop : ip.dropWhile (fun c => c != '.') = [] := List.dropWhile_eq_nil_iff.mpr hp
  cases neg
  · have hhead : ((ip.head? == some '-') = false) := by
      rw [hip]; simpa using hc0
    simp only [parseDecimal, Bool.false_eq_true, if_false, List.nil_append, hhead, htake, hdrop,
      ha]
  · have hs : (if true = true then ['-'] else []) ++ ip = '-' :: ip := rfl
    have hhead : ((('-' :: ip).head? == some '-') = true) := by simp
    rw [hs]
    simp only [parseDecimal, if_true, hhead, List.drop_succ_cons, List.drop_zero, htake, hdrop,
      ha]

theorem div_add_mod_cast (s p : Nat) :
    ((s / 10 ^ p : ℕ) : ℚ) + ((s % 10 ^ p : ℕ) : ℚ) / (10 : ℚ) ^ p = (s : ℚ) / (10 : ℚ) ^ p := by
  have h := Nat.div_add_mod s (10 ^ p)
  have hq : ((10 ^ p * (s / 10 ^ p) + s % 10 ^ p : ℕ) : ℚ) = (s : ℚ) := by rw [h]
  push_cast at hq
  have h10 : ((10 : ℚ) ^ p) ≠ 0 := by positivity
  field_simp
  linarith

/-- What the text of a `%.<p>f` conversion, `p > 0`, reads back as. -/
theorem parseDecimal_fmt_f (p : Nat) (hp : 0 < p) (neg : Bool) (m : Nat) (e : Int) :
    parseDecimal (fmt_f p (Double.finite neg m e))
      = some ((if neg then -1 else 1) * ((Double.scaled p m e : ℚ) / (10 : ℚ) ^ p)) := by
  have hp0 : p ≠ 0 := by omega
  have hmod : Double.scaled p m e % 10 ^ p < 10 ^ p := Nat.mod_lt _ (by positivity)
  have hlen := padZeros_length p (fmtNat (Double.scaled p m e % 10 ^ p))
    (fmtNat_length_le _ p hp hmod)
  have h := parseDecimal_with_point neg (fmtNat (Double.scaled p m e / 10 ^ p))
    (padZeros p (fmtNat (Double.scaled p m e % 10 ^ p))) _ _ (fmtNat_ne_nil _)
    (fmtNat_isDigit _) (parseNat_fmtNat _) (parseNat_padZeros p _ hp hmod)
  rw [hlen, div_add_mod_cast] at h
  simp only [fmt_f, hp0, if_false]
  exact h

/-- What the text of a `%.0f` conversion reads back as. -/
theorem parseDecimal_fmt_f_zero (neg : Bool) (m : Nat) (e : Int) :
    parseDecimal (fmt_f 0 (Double.finite neg m e))
      = some ((if neg then -1 else 1) * (Double.scaled 0 m e : ℚ)) := by
  have h := parseDecimal_no_point neg (fmtNat (Double.scaled 0 m e / 10 ^ 0)) _ (fmtNat_ne_nil _)
    (fmtNat_isDigit _) (parseNat_fmtNat _)
  simp only [pow_zero, Nat.div_one] at h
  simp only [fmt_f, if_true, List.append_nil, pow_zero, Nat.div_one]
  exact h

/-! ## Lemmas on rounding -/

theorem roundHalfEven_close (n d : Nat) (hd : 0 < d) :
    2 * (Double.roundHalfEven n d * d) ≤ 2 * n + d ∧
    2 * n ≤ 2 * (Double.roundHalfEven n d * d) + d := by
  have hdm := Nat.div_add_mod n d
  have hr := Nat.mod_lt n hd
  have hmul : (n / d + 1) * d = d * (n / d) + d := by ring
  have hmul' : n / d * d = d * (n / d) := by ring
  unfold Double.roundHalfEven
  simp only
  split
  · rename_i hc
    rw [hmul]
    rcases hc with hc | hc <;> omega
  · rename_i hc
    rw [hmul']
    have : ¬ d < 2 * (n % d) := fun h => hc (Or.inl h)
    omega

theorem roundHalfEven_exact (n d : Nat) (hd : 0 < d) (h : d ∣ n) :
    Double.roundHalfEven n d * d = n := by
  obtain ⟨j, hj⟩ := h
  have h1 : n % d = 0 := by rw [hj]; exact Nat.mul_mod_right d j
  have h2 : n / d * d = n := Nat.div_mul_cancel ⟨j, hj⟩
  unfold Double.roundHalfEven
  simp only [h1]
  rw [if_neg (by omega)]
  exact h2

theorem abs_div_sub_div_le (S N D T : ℚ) (hD : 0 < D) (hT : 0 < T)
    (h1 : 2 * (S * D) ≤ 2 * (N * T) + D) (h2 : 2 * (N * T) ≤ 2 * (S * D) + D) :
    |S / T - N / D| ≤ 1 / (2 * T) := by
  have key : S / T - N / D = (S * D - N * T) / (T * D) := by
    field_simp
    ring
  rw [key, abs_le]
  constructor
  · rw [le_div_iff₀ (by positivity)]
    have h : -(1 / (2 * T)) * (T * D) = -(D / 2) := by
      field_simp
      ring
    rw [h]
    linarith
  · rw [div_le_iff₀ (by positivity)]
    have h : 1 / (2 * T) * (T * D) = D / 2 := by
      field_simp
      ring
    rw [h]
    linarith

/-- The digits printed are within half a unit of the last place of the value. -/
theorem scaled_close (p m : Nat) (e : Int) :
    |(Double.scaled p m e : ℚ) / (10 : ℚ) ^ p - (m : ℚ) * (2 : ℚ) ^ e|
      ≤ 1 / (2 * (10 : ℚ) ^ p) := by
  have hd : 0 < 2 ^ (-e).toNat := by positivity
  obtain ⟨h1, h2⟩ := roundHalfEven_close (m * 2 ^ e.toNat * 10 ^ p) (2 ^ (-e).toNat) hd
  rw [magnitude_eq_div]
  have hD : (0 : ℚ) < ((2 ^ (-e).toNat : ℕ) : ℚ) := by exact_mod_cast hd
  have hT : (0 : ℚ) < (10 : ℚ) ^ p := by positivity
  have q1 : (2 : ℚ) * ((Double.scaled p m e : ℚ) * ((2 ^ (-e).toNat : ℕ) : ℚ))
      ≤ 2 * (((m * 2 ^ e.toNat : ℕ) : ℚ) * (10 : ℚ) ^ p) + ((2 ^ (-e).toNat : ℕ) : ℚ) := by
    have := h1
    unfold Double.scaled
    exact_mod_cast this
  have q2 : (2 : ℚ) * (((m * 2 ^ e.toNat : ℕ) : ℚ) * (10 : ℚ) ^ p)
      ≤ 2 * ((Double.scaled p m e : ℚ) * ((2 ^ (-e).toNat : ℕ) : ℚ)) + ((2 ^ (-e).toNat : ℕ) : ℚ) := by
    have := h2
    unfold Double.scaled
    exact_mod_cast this
  exact abs_div_sub_div_le _ _ _ _ hD hT q1 q2

/-! ## Lemmas on the product `value * 10` -/

theorem bitLengthAux_lower :
    ∀ (fuel m : Nat), m ≤ fuel → m ≠ 0 →
      ∃ b, Double.bitLengthAux fuel m = b + 1 ∧ 2 ^ b ≤ m := by
  intro fuel
  induction fuel with
  | zero => intro m h h0; omega
  | succ fuel ih =>
    intro m h h0
    unfold Double.bitLengthAux
    rw [if_neg h0]
    by_cases h2 : m / 2 = 0
    · refine ⟨0, ?_, by omega⟩
      rw [h2]
      cases fuel <;> simp [Double.bitLengthAux]
    · obtain ⟨b, hb, hle⟩ := ih (m / 2) (by omega) h2
      refine ⟨b + 1, by rw [hb], ?_⟩
      rw [pow_succ]
      omega

theorem bitLength_lower (m : Nat) (h0 : m ≠ 0) :
    ∃ b, Double.bitLength m = b + 1 ∧ 2 ^ b ≤ m :=
  bitLengthAux_lower m m (le_refl m) h0

/-- Rounding changes nothing when the bits it drops are all zero. -/
theorem round_exact (neg : Bool) (M : Nat) (E e' : Int)
    (he' : e' = max (E + (Double.bitLength M : Int) - 53) (-1074))
    (hdvd : 2 ^ (e' - E).toNat ∣ M * 2 ^ (E - e').toNat) (hle : e' ≤ 970) :
    ∃ q2 e2, Double.round neg M E = Double.finite neg q2 e2 ∧
      (q2 : ℚ) * (2 : ℚ) ^ e2 = (M : ℚ) * (2 : ℚ) ^ E := by
  have hd : 0 < 2 ^ (e' - E).toNat := by positivity
  have hq := roundHalfEven_exact (M * 2 ^ (E - e').toNat) (2 ^ (e' - E).toNat) hd hdvd
  have hqQ : (Double.roundHalfEven (M * 2 ^ (E - e').toNat) (2 ^ (e' - E).toNat) : ℚ)
      = (M : ℚ) * (2 : ℚ) ^ (E - e') := by
    have hcast : ((Double.roundHalfEven (M * 2 ^ (E - e').toNat) (2 ^ (e' - E).toNat)
        * 2 ^ (e' - E).toNat : ℕ) : ℚ) = ((M * 2 ^ (E - e').toNat : ℕ) : ℚ) := by rw [hq]
    push_cast at hcast
    have hn : (-(E - e')).toNat = (e' - E).toNat := by congr 1; ring
    rw [zpow_two_split (E - e'), hn]
    have h2 : ((2 : ℚ) ^ (e' - E).toNat) ≠ 0 := by positivity
    field_simp
    linarith
  have hval : (Double.roundHalfEven (M * 2 ^ (E - e').toNat) (2 ^ (e' - E).toNat) : ℚ)
      * (2 : ℚ) ^ e' = (M : ℚ) * (2 : ℚ) ^ E := by
    rw [hqQ, mul_assoc, ← zpow_add₀ (by norm_num : (2 : ℚ) ≠ 0)]
    congr 2
    ring
  unfold Double.round
  simp only [← he']
  by_cases h53 : Double.roundHalfEven (M * 2 ^ (E - e').toNat) (2 ^ (e' - E).toNat) = 2 ^ 53
  · rw [if_pos h53, if_neg (by omega)]
    refine ⟨2 ^ 52, e' + 1, rfl, ?_⟩
    rw [← hval, h53, zpow_add₀ (by norm_num : (2 : ℚ) ≠ 0)]
    push_cast
    ring
  · rw [if_neg h53, if_neg (by omega)]
    exact ⟨_, e', rfl, hval⟩

/-- The product `value * 10` is computed without rounding error when the value
is a multiple of one hundredth, not whole, and below `2^52 / 10` in magnitude. -/
theorem mul_ten_exact (neg : Bool) (m : Nat) (e : Int) (hneg : e < 0) (hm0 : m ≠ 0)
    (h100 : 2 ^ (-e).toNat ∣ m * 100) (hsmall : m * 10 < 2 ^ 52 * 2 ^ (-e).toNat) :
    ∃ q2 e2, Double.mul (Double.finite neg m e) (Double.ofInt 10) = Double.finite neg q2 e2 ∧
      (q2 : ℚ) * (2 : ℚ) ^ e2 = (m : ℚ) * 10 * (2 : ℚ) ^ e := by
  obtain ⟨k, hk⟩ : ∃ k : Nat, (-e).toNat = k + 1 := ⟨(-e).toNat - 1, by omega⟩
  have hek : e = -((k : ℤ) + 1) := by omega
  rw [hk] at h100 hsmall
  obtain ⟨b, hb, hble⟩ := bitLength_lower (m * 10) (by omega)
  -- the exponent after rounding is negative
  have hbk : b < 52 + (k + 1) := by
    have h1 : 2 ^ b < 2 ^ (52 + (k + 1)) := by
      calc 2 ^ b ≤ m * 10 := hble
        _ < 2 ^ 52 * 2 ^ (k + 1) := hsmall
        _ = 2 ^ (52 + (k + 1)) := (pow_add 2 52 (k + 1)).symm
    exact (Nat.pow_lt_pow_iff_right (by decide)).mp h1
  -- half of the denominator divides the product
  have hhalf : 2 ^ k ∣ m * 10 := by
    have h1 : 2 ^ (k + 1) ∣ 5 * (2 * (m * 10)) := by
      have : 5 * (2 * (m * 10)) = m * 100 := by ring
      rw [this]; exact h100
    have hco : Nat.Coprime (2 ^ (k + 1)) 5 := Nat.Coprime.pow_left _ (by decide)
    have h2 : 2 ^ (k + 1) ∣ 2 * (m * 10) := hco.dvd_of_dvd_mul_left h1
    rw [pow_succ, mul_comm] at h2
    exact Nat.dvd_of_mul_dvd_mul_left (by decide) h2
  have hres := round_exact neg (m * 10) (e + 0)
    (max (e + 0 + (Double.bitLength (m * 10) : Int) - 53) (-1074)) rfl ?_ ?_
  · obtain ⟨q2, e2, h1, h2⟩ := hres
    refine ⟨q2, e2, ?_, ?_⟩
    · simp only [Double.mul, Double.ofInt]
      have hx : xor neg (decide ((10 : ℤ) < 0)) = neg := by cases neg <;> rfl
      have hn : (10 : ℤ).natAbs = 10 := rfl
      rw [hx, hn]
      exact h1
    · rw [h2]
      push_cast
      rw [add_zero]
  · -- divisibility of the dropped bits
    rw [hb]
    rcases le_or_lt (max (e + 0 + ((b + 1 : ℕ) : ℤ) - 53) (-1074)) (e + 0) with hc | hc
    · have h0 : (max (e + 0 + ((b + 1 : ℕ) : ℤ) - 53) (-1074) - (e + 0)).toNat = 0 := by omega
      rw [h0, pow_zero]
      exact one_dvd _
    · have h0 : (e + 0 - max (e + 0 + ((b + 1 : ℕ) : ℤ) - 53) (-1074)).toNat = 0 := by omega
      rw [h0, pow_zero, mul_one]
      have hg : (max (e + 0 + ((b + 1 : ℕ) : ℤ) - 53) (-1074) - (e + 0)).toNat ≤ k := by
        have : max (e + 0 + ((b + 1 : ℕ) : ℤ) - 53) (-1074) ≤ -1 := by
          apply max_le
          · push_cast; omega
          · omega
        omega
      exact Nat.dvd_trans (Nat.pow_dvd_pow 2 hg) hhalf
  · rw [hb]
    apply max_le
    · push_cast; omega
    · omega

theorem fractionDigits_fmt_f (p : Nat) (neg : Bool) (m : Nat) (e : Int) :
    fractionDigits (fmt_f p (Double.finite neg m e)) = p := by
  cases p with
  | zero => exact fractionDigits_of_no_point _ (fmt_f_zero_no_point neg m e)
  | succ p =>
    obtain ⟨pre, frac, he, hpre, hlen, _⟩ := fmt_f_succ_split p neg m e
    rw [he, fractionDigits_of_point pre frac hpre, hlen]

/-- When `10^p` times the value is whole, the digits printed by `%.<p>f` are
the value itself. -/
theorem scaled_exact (p : Nat) (neg : Bool) (m : Nat) (e : Int)
    (hdvd : 2 ^ (-e).toNat ∣ m * 2 ^ e.toNat * 10 ^ p) :
    (if neg then -1 else 1 : ℚ) * ((Double.scaled p m e : ℚ) / (10 : ℚ) ^ p)
      = Double.toRat (Double.finite neg m e) := by
  have hd : 0 < 2 ^ (-e).toNat := by positivity
  have hq := roundHalfEven_exact _ _ hd hdvd
  have hcast : ((Double.scaled p m e * 2 ^ (-e).toNat : ℕ) : ℚ)
      = ((m * 2 ^ e.toNat * 10 ^ p : ℕ) : ℚ) := by
    unfold Double.scaled
    rw [hq]
  push_cast at hcast
  rw [toRat_finite]
  congr 1
  have h2 : ((2 : ℚ) ^ (-e).toNat) ≠ 0 := by positivity
  have h10 : ((10 : ℚ) ^ p) ≠ 0 := by positivity
  push_cast
  field_simp
  linarith

/-! ## The assemblies of `main` in `ex_2/main.c` -/

theorem temp_1_is_assemble (garbage : List Char) :
    Ex2.__temp_1 garbage = assemble garbage
      [Fragment.literal "Message: ", Fragment.computed (CValue.constCharPtr Ex2.msg)] :=
  rfl

theorem temp_2_is_assemble (garbage : List Char) :
    Ex2.__temp_2 garbage = assemble garbage
      [Fragment.literal "Count: ", Fragment.computed (CValue.int Ex2.count)] :=
  rfl

theorem temp_3_is_assemble (garbage : List Char) :
    Ex2.__temp_3 garbage = assemble garbage
      [Fragment.literal "Pi: ", Fragment.computed (CValue.double Ex2.pi)] :=
  rfl

theorem temp_4_is_assemble (garbage : List Char) :
    Ex2.__temp_4 garbage = assemble garbage
      [Fragment.literal "Combined: ", Fragment.computed (CValue.constCharPtr Ex2.msg),
        Fragment.literal " - ", Fragment.computed (CValue.int Ex2.count),
        Fragment.literal " - ", Fragment.computed (CValue.double Ex2.pi)] :=
  rfl

/-- The four lines `main` of `ex_2/main.c` prints from its assemblies. -/
theorem main_lines (garbage : List Char) :
    (Ex2.__temp_1 garbage).text = "Message: Test".toList ∧
    (Ex2.__temp_2 garbage).text = "Count: 42".toList ∧
    (Ex2.__temp_3 garbage).text = "Pi: 3.14".toList ∧
    (Ex2.__temp_4 garbage).text = "Combined: Test - 42 - 3.14".toList := by
  rw [temp_1_is_assemble, temp_2_is_assemble, temp_3_is_assemble, temp_4_is_assemble]
  simp only [assemble_text_eq]
  refine ⟨by decide!, by decide!, by decide!, by decide!⟩

/-- The tests of `__nice_float_to_str` are made on the rounded product: the
binary64 value nearest to 0.1 is not a multiple of one tenth, yet its product
by 10 is the whole number 1 and the text has one fraction digit. -/
theorem nice_float_tenth_by_rounding :
    (¬ ∃ z : ℤ, Double.toRat (Double.finite false 3602879701896397 (-55)) * 10 = z) ∧
    Double.mul (Double.finite false 3602879701896397 (-55)) (Double.ofInt 10)
      = Double.finite false 4503599627370496 (-52) ∧
    (__nice_float_to_str (Double.finite false 3602879701896397 (-55))).text = "0.1".toList := by
  refine ⟨?_, by decide!, by decide!⟩
  have h := toRat_mul_integral_iff false 3602879701896397 (-55) 10
  simp only [Nat.cast_ofNat] at h
  rw [h]
  decide!

/-! ## Lemmas on the size of the texts -/

theorem sprintf_malloc_overflow (n : Nat) (out : List Char) :
    (sprintf (malloc n) out).overflow = decide (n < out.length + 1) := by
  simp [sprintf, malloc, CBuf.write]

theorem toInt32_range (n : Int) : -2147483648 ≤ toInt32 n ∧ toInt32 n ≤ 2147483647 := by
  unfold toInt32
  omega

theorem fmt_d_length_le (v : Int) (hlo : -2147483648 ≤ v) (hhi : v ≤ 2147483647) :
    (fmt_d v).length ≤ 11 := by
  have hn : v.natAbs < 10 ^ 10 := by
    have : v.natAbs ≤ 2147483648 := by omega
    have h10 : (10 : Nat) ^ 10 = 10000000000 := by norm_num
    omega
  have hl := fmtNat_length_le v.natAbs 10 (by decide) hn
  unfold fmt_d
  split
  · simp only [List.length_cons]; omega
  · omega

theorem float_to_str_text_ex1 (v : Double) :
    (Ex1Main.__float_to_str v).text = fmt_f 6 v :=
  sprintf_malloc_text 32 _ (fmt_f_ne_nul 6 v)

theorem nice_fractionDigits_le (neg : Bool) (m : Nat) (e : Int) :
    fractionDigits (__nice_float_to_str (Double.finite neg m e)).text ≤ 2 := by
  by_cases h : Double.IsIntegral (Double.finite neg m e)
  · rw [nice_text_integral _ h, fractionDigits_fmt_f]; omega
  · by_cases h10 : Double.IsIntegral (Double.mul (Double.finite neg m e) (Double.ofInt 10))
    · rw [nice_text_tenth _ h h10, fractionDigits_fmt_f]; omega
    · rw [nice_text_hundredth _ h h10, fractionDigits_fmt_f]

theorem nice_eq_three_rules (value : Double) :
    __nice_float_to_str value = niceFloatThreeRules value := by
  unfold __nice_float_to_str niceFloatThreeRules
  simp only [ite_self]

/-! ## Lemmas on the states of an assembly -/

theorem get?_append_length (a r : List Char) (x : Char) :
    (a ++ x :: r).get? a.length = some x := by
  induction a with
  | nil => rfl
  | cons c a ih => simpa using ih

theorem write_terminated (b : CBuf) (t : List Char) (h : ∀ c ∈ t, c ≠ NUL) :
    (b.write (strlen b.mem) (t ++ [NUL])).mem.get?
      (b.write (strlen b.mem) (t ++ [NUL])).text.length = some NUL := by
  have hmem : (b.write (strlen b.mem) (t ++ [NUL])).mem
      = (cstr b.mem ++ t) ++ NUL :: b.mem.drop (strlen b.mem + (t ++ [NUL]).length) := by
    simp only [CBuf.write, writeBytes, take_strlen, List.append_assoc, List.singleton_append]
  have htext : (b.write (strlen b.mem) (t ++ [NUL])).text = cstr b.mem ++ t := by
    simp only [CBuf.text]
    rw [hmem]
    apply cstr_append_nul
    intro c hc
    rcases List.mem_append.mp hc with h1 | h1
    · exact cstr_no_nul _ c h1
    · exact h c h1
  rw [htext, hmem]
  exact get?_append_length _ _ _

theorem strcat_nul_at (dest src : CBuf) :
    (strcat dest src).mem.get? (strcat dest src).text.length = some NUL :=
  write_terminated dest src.text (cstr_no_nul _)

theorem write_zero_nul_at (b : CBuf) (t : List Char) (h : ∀ c ∈ t, c ≠ NUL) :
    (b.write 0 (t ++ [NUL])).mem.get? (b.write 0 (t ++ [NUL])).text.length = some NUL := by
  rw [write_zero_text b t h]
  simp only [CBuf.write, writeBytes, List.take_zero, List.nil_append, List.append_assoc,
    List.singleton_append]
  exact get?_append_length _ _ _

theorem strcpy_nul_at (dest src : CBuf) :
    (strcpy dest src).mem.get? (strcpy dest src).text.length = some NUL :=
  write_zero_nul_at dest src.text (cstr_no_nul _)

theorem init_nul_at (b : CBuf) :
    (b.write 0 [NUL]).mem.get? (b.write 0 [NUL]).text.length = some NUL := by
  have := write_zero_nul_at b [] (fun _ h => absurd h (List.not_mem_nil _))
  simpa using this

theorem concatText_cons (f : Fragment) (rest : List Fragment) :
    concatText (f :: rest) = f.text ++ concatText rest := by
  simp [concatText]

theorem concatText_length (frags : List Fragment) :
    (concatText frags).length = (frags.map (fun f => f.text.length)).sum := by
  simp only [concatText, List.length_flatten, List.map_map]
  rfl

theorem strcatTrace_text (rest : List Fragment) :
    ∀ t : CBuf, (strcatTrace t rest).map CBuf.text
      = rest.inits.map (fun p => t.text ++ concatText p) := by
  induction rest with
  | nil => intro t; simp [strcatTrace, concatText]
  | cons g rest ih =>
    intro t
    simp only [strcatTrace, List.map_cons, ih, strcat_text, List.inits_cons, List.map_map]
    refine congrArg₂ _ (by simp [concatText]) ?_
    apply List.map_congr_left
    intro p _
    simp only [Function.comp, concatText_cons, List.append_assoc]
    rfl

theorem assembleTrace_text (garbage : List Char) (frags : List Fragment) :
    (assembleTrace garbage frags).map CBuf.text = frags.inits.map concatText := by
  cases frags with
  | nil => simp [assembleTrace, init_text, concatText]
  | cons f rest =>
    simp only [assembleTrace, List.map_cons, init_text, strcatTrace_text, strcpy_text,
      List.inits_cons, List.map_map]
    refine congrArg₂ _ (by simp [concatText]) ?_
    apply List.map_congr_left
    intro p _
    simp only [Function.comp, concatText_cons]
    rfl

theorem strcatTrace_last (rest : List Fragment) :
    ∀ t : CBuf, (strcatTrace t rest).getLast?
      = some (rest.foldl (fun t g => strcat t g.src) t) := by
  induction rest with
  | nil => intro t; rfl
  | cons g rest ih =>
    intro t
    have h := ih (strcat t g.src)
    simp only [strcatTrace, List.foldl_cons]
    rw [List.getLast?_cons, h]
    rfl

theorem assembleTrace_last (garbage : List Char) (frags : List Fragment) :
    (assembleTrace garbage frags).getLast? = some (assemble garbage frags) := by
  cases frags with
  | nil => rfl
  | cons f rest =>
    simp only [assembleTrace, assemble]
    rw [List.getLast?_cons, strcatTrace_last]
    rfl

theorem strcatTrace_states (rest : List Fragment) :
    ∀ t : CBuf, Tracked t → t.mem.get? t.text.length = some NUL →
      ∀ u ∈ strcatTrace t rest,
        Tracked u ∧ u.mem.get? u.text.length = some NUL ∧
        u.text.length ≤ t.text.length + (concatText rest).length := by
  induction rest with
  | nil =>
    intro t ht hn u hu
    simp only [strcatTrace, List.mem_singleton] at hu
    subst hu
    exact ⟨ht, hn, by omega⟩
  | cons g rest ih =>
    intro t ht hn u hu
    simp only [strcatTrace, List.mem_cons] at hu
    rcases hu with hu | hu
    · subst hu
      exact ⟨ht, hn, by omega⟩
    · obtain ⟨h1, h2, h3⟩ :=
        ih (strcat t g.src) (tracked_strcat t g.src ht) (strcat_nul_at t g.src) u hu
      refine ⟨h1, h2, ?_⟩
      rw [strcat_text, List.length_append] at h3
      rw [concatText_cons, List.length_append]
      simp only [Fragment.text]
      omega

theorem assembleTrace_states (garbage : List Char) (frags : List Fragment) :
    ∀ u ∈ assembleTrace garbage frags,
      Tracked u ∧ u.mem.get? u.text.length = some NUL ∧
      u.text.length ≤ (concatText frags).length := by
  have hi := tracked_init garbage
  have hin := init_nul_at (charArray 1024 garbage)
  have hi0 : ((charArray 1024 garbage).write 0 [NUL]).text.length = 0 := by
    rw [init_text]; rfl
  cases frags with
  | nil =>
    intro u hu
    simp only [assembleTrace, List.mem_singleton] at hu
    subst hu
    exact ⟨hi, hin, by omega⟩
  | cons f rest =>
    intro u hu
    simp only [assembleTrace, List.mem_cons] at hu
    rcases hu with hu | hu
    · subst hu
      exact ⟨hi, hin, by omega⟩
    · have hov : ((charArray 1024 garbage).write 0 [NUL]).overflow = false := by
        simp [CBuf.write, charArray]
      obtain ⟨h1, h2, h3⟩ := strcatTrace_states rest _
        (tracked_strcpy _ f.src hi hov) (strcpy_nul_at _ f.src) u hu
      refine ⟨h1, h2, ?_⟩
      rw [strcpy_text] at h3
      rw [concatText_cons, List.length_append]
      simp only [Fragment.text]
      exact h3

/-! ## Lemmas on ties of the `%f` conversion -/

theorem roundHalfEven_tie (n d : Nat) (hd : 0 < d)
    (h : 2 * (Double.roundHalfEven n d * d) = 2 * n + d ∨
      2 * n = 2 * (Double.roundHalfEven n d * d) + d) :
    Double.roundHalfEven n d % 2 = 0 := by
  have hdm := Nat.div_add_mod n d
  have hr := Nat.mod_lt n hd
  have hmul : (n / d + 1) * d = d * (n / d) + d := by ring
  have hmul' : n / d * d = d * (n / d) := by ring
  by_cases hc : d < 2 * (n % d) ∨ (2 * (n % d) = d ∧ n / d % 2 = 1)
  · simp only [Double.roundHalfEven, hc, if_true, hmul] at h ⊢
    rcases hc with hc | hc <;> omega
  · simp only [Double.roundHalfEven, hc, if_false, hmul'] at h ⊢
    have h1 : ¬ d < 2 * (n % d) := fun x => hc (Or.inl x)
    have h2 : ¬ (2 * (n % d) = d ∧ n / d % 2 = 1) := fun x => hc (Or.inr x)
    have h3 : 2 * (n % d) = d := by omega
    have h4 : ¬ n / d % 2 = 1 := fun x => h2 ⟨h3, x⟩
    omega

theorem tie_cases (S N D T : ℚ) (hD : 0 < D) (hT : 0 < T)
    (h : |S / T - N / D| = 1 / (2 * T)) :
    2 * (S * D) = 2 * (N * T) + D ∨ 2 * (N * T) = 2 * (S * D) + D := by
  have key : S / T - N / D = (S * D - N * T) / (T * D) := by
    field_simp
    ring
  have hTD : T * D ≠ 0 := ne_of_gt (by positivity)
  have h2T : 2 * T ≠ 0 := ne_of_gt (by positivity)
  have hT0 : T ≠ 0 := ne_of_gt hT
  rw [key] at h
  rcases (abs_eq (by positivity)).mp h with h1 | h1
  · left
    rw [div_eq_div_iff hTD h2T] at h1
    have h3 : T * (2 * (S * D) - (2 * (N * T) + D)) = 0 := by
      have : T * (2 * (S * D) - (2 * (N * T) + D)) = (S * D - N * T) * (2 * T) - 1 * (T * D) := by
        ring
      rw [this, h1]
      ring
    rcases mul_eq_zero.mp h3 with h4 | h4
    · exact absurd h4 hT0
    · linarith
  · right
    rw [← neg_div, div_eq_div_iff hTD h2T] at h1
    have h3 : T * (2 * (N * T) - (2 * (S * D) + D)) = 0 := by
      have : T * (2 * (N * T) - (2 * (S * D) + D))
          = -((S * D - N * T) * (2 * T)) + (-1) * (T * D) := by
        ring
      rw [this, h1]
      ring
    rcases mul_eq_zero.mp h3 with h4 | h4
    · exact absurd h4 hT0
    · linarith

/-- On a tie the digits printed are those of the even neighbour. -/
theorem scaled_tie (p m : Nat) (e : Int)
    (h : |(Double.scaled p m e : ℚ) / (10 : ℚ) ^ p - (m : ℚ) * (2 : ℚ) ^ e|
      = 1 / (2 * (10 : ℚ) ^ p)) :
    Double.scaled p m e % 2 = 0 := by
  have hd : 0 < 2 ^ (-e).toNat := by positivity
  have hD : (0 : ℚ) < ((2 ^ (-e).toNat : ℕ) : ℚ) := by exact_mod_cast hd
  have hT : (0 : ℚ) < (10 : ℚ) ^ p := by positivity
  rw [magnitude_eq_div] at h
  have hc := tie_cases _ _ _ _ hD hT h
  apply roundHalfEven_tie (m * 2 ^ e.toNat * 10 ^ p) (2 ^ (-e).toNat) hd
  rcases hc with hc | hc
  · left
    have hc' : ((2 * (Double.scaled p m e * 2 ^ (-e).toNat) : ℕ) : ℚ)
        = ((2 * (m * 2 ^ e.toNat * 10 ^ p) + 2 ^ (-e).toNat : ℕ) : ℚ) := by
      push_cast
      push_cast at hc
      linarith
    have := Nat.cast_injective hc'
    unfold Double.scaled at this
    exact this
  · right
    have hc' : ((2 * (m * 2 ^ e.toNat * 10 ^ p) : ℕ) : ℚ)
        = ((2 * (Double.scaled p m e * 2 ^ (-e).toNat) + 2 ^ (-e).toNat : ℕ) : ℚ) := by
      push_cast
      push_cast at hc
      linarith
    have := Nat.cast_injective hc'
    unfold Double.scaled at this
    exact this

/-- The text of a `%.<p>f` conversion, `p > 0`, of a finite value: the numeral
of `k / 10^p` for the integer `k` nearest to `10^p` times the value, the even
one on a tie. -/
theorem fmt_f_nearest (p : Nat) (hp : 0 < p) (neg : Bool) (m : Nat) (e : Int) :
    ∃ k : ℤ,
      fmt_f p (Double.finite neg m e)
        = (if neg then ['-'] else []) ++ fmtNat (k.natAbs / 10 ^ p)
            ++ '.' :: padZeros p (fmtNat (k.natAbs % 10 ^ p)) ∧
      parseDecimal (fmt_f p (Double.finite neg m e)) = some ((k : ℚ) / (10 : ℚ) ^ p) ∧
      |(k : ℚ) / (10 : ℚ) ^ p - Double.toRat (Double.finite neg m e)|
        ≤ 1 / (2 * (10 : ℚ) ^ p) ∧
      (|(k : ℚ) / (10 : ℚ) ^ p - Double.toRat (Double.finite neg m e)|
        = 1 / (2 * (10 : ℚ) ^ p) → 2 ∣ k) := by
  have hp0 : p ≠ 0 := by omega
  have hk : ∀ k : ℤ, k = (if neg then -1 else 1) * (Double.scaled p m e : ℤ) →
      (k : ℚ) / (10 : ℚ) ^ p - Double.toRat (Double.finite neg m e)
        = (if neg then -1 else 1)
          * ((Double.scaled p m e : ℚ) / (10 : ℚ) ^ p - (m : ℚ) * (2 : ℚ) ^ e) := by
    intro k hk
    rw [hk]
    simp only [Double.toRat]
    cases neg <;> push_cast <;> ring
  have hs : |(if neg then -1 else 1 : ℚ)| = 1 := by cases neg <;> simp
  have hna : ((if neg then -1 else 1) * (Double.scaled p m e : ℤ)).natAbs
      = Double.scaled p m e := by
    cases neg <;> simp
  refine ⟨(if neg then -1 else 1) * (Double.scaled p m e : ℤ), ?_, ?_, ?_, ?_⟩
  · rw [hna]
    simp only [fmt_f, hp0, if_false]
  · rw [parseDecimal_fmt_f p hp]
    congr 1
    cases neg <;> push_cast <;> ring
  · rw [hk _ rfl, abs_mul, hs, one_mul]
    exact scaled_close p m e
  · intro htie
    rw [hk _ rfl, abs_mul, hs, one_mul] at htie
    have h2 : 2 ∣ Double.scaled p m e := Nat.dvd_of_mod_eq_zero (scaled_tie p m e htie)
    exact Dvd.dvd.mul_left (Int.natCast_dvd_natCast.mpr h2) _

/-- A NaN `value` falls through every test of `__nice_float_to_str` and is
written by `%.2f` as `"nan"`, or `"-nan"` when its sign bit is set. -/
theorem nice_float_nan_text :
    (__nice_float_to_str (Double.nan false)).text = "nan".toList ∧
    (__nice_float_to_str (Double.nan true)).text = "-nan".toList := by
  decide!

/-! ## The claims -/

/-- C1 (counterexample): 2147483648 is a 64-bit signed integer, but it does not
fit the parameter `int value`; the text written for it is that of -2147483648,
so parsing the text does not give the value back. -/
theorem int_round_trip_fails_beyond_int :
    (-9223372036854775808 : Int) ≤ 2147483648 ∧ (2147483648 : Int) ≤ 9223372036854775807 ∧
    parseInt (__int_to_str 2147483648).text = some (-2147483648) ∧
    parseInt (__int_to_str 2147483648).text ≠ some 2147483648 := by
  decide

/-- C1 (amended): for every integer `n` that the C type `int` holds
(-2147483648 ≤ n ≤ 2147483647), the text `__int_to_str` produces for `n` parses
back to `n` under base-10 parsing. -/
theorem int_round_trip (n : Int) (hlo : -2147483648 ≤ n) (hhi : n ≤ 2147483647) :
    parseInt (__int_to_str n).text = some n := by
  rw [int_to_str_text, toInt32_of_range n hlo hhi, parseInt_fmt_d]

/-- C1 (witness): the round trip at the least `int`. -/
theorem int_round_trip_witness :
    (-2147483648 : Int) ≤ -2147483648 ∧ (-2147483648 : Int) ≤ 2147483647 ∧
    parseInt (__int_to_str (-2147483648)).text = some (-2147483648) :=
  ⟨by decide, by decide, int_round_trip (-2147483648) (by decide) (by decide)⟩

/-- C2: for every fragment sequence and whatever the array held before, the
string assembled by the `strcpy` / `strcat` statements is the left-to-right
concatenation of the fragments' texts, each fragment once and in order; a
literal contributes the C string it denotes (its own characters when it has no
embedded NUL) and a value its `__to_str` text; `"Count: "` followed by the
`int` 42 assembles to `"Count: 42"`. -/
theorem assemble_is_concatenation :
    (∀ (garbage : List Char) (frags : List Fragment),
      (assemble garbage frags).text = (frags.map Fragment.text).flatten) ∧
    (∀ s : String, (Fragment.literal s).text = cstr s.toList) ∧
    (∀ s : String, (∀ c ∈ s.toList, c ≠ NUL) → (Fragment.literal s).text = s.toList) ∧
    (∀ v : CValue, (Fragment.computed v).text = (Ex2.__to_str v).text) ∧
    (∀ garbage : List Char,
      (assemble garbage [Fragment.literal "Count: ", Fragment.computed (CValue.int 42)]).text
        = "Count: 42".toList) := by
  refine ⟨fun g frags => assemble_text_eq g frags, ?_, ?_, fun _ => rfl, ?_⟩
  · intro s
    simp only [Fragment.text, Fragment.src, strLit, CBuf.text]
    exact cstr_append_nul_left s.toList []
  · intro s hs
    simp only [Fragment.text, Fragment.src, strLit, CBuf.text]
    exact cstr_append_nul s.toList [] hs
  · intro g
    rw [assemble_text_eq]
    decide

/-- C3 (the code at the failing input): one literal of 1024 characters is a
well-formed fragment sequence whose text, with its terminator, is one byte
longer than the array; the `strcpy` of the assembly writes past the end of the
`char[1024]` array, which has no bounds check and does not grow. -/
theorem assemble_overflows_at_1024 :
    (concatText [Fragment.literal (String.mk (List.replicate 1024 'a'))]).length = 1024 ∧
    (assemble [] [Fragment.literal (String.mk (List.replicate 1024 'a'))]).cap = 1024 ∧
    (assemble [] [Fragment.literal (String.mk (List.replicate 1024 'a'))]).overflow = true := by
  decide!

/-- C4: for every finite value, `__nice_float_to_str` writes no decimal point
and no fraction digit when the value is a whole number, a point and exactly one
digit when the value is not whole but the `double` product `value * 10` is, and
a point and exactly two digits otherwise; 3.0 gives `"3"`, 2.5 gives `"2.5"` and
3.14159 gives `"3.14"`. -/
theorem nice_float_fraction_digits :
    (∀ (neg : Bool) (m : Nat) (e : Int),
      (Double.IsIntegral (Double.finite neg m e) →
        (∀ c ∈ (__nice_float_to_str (Double.finite neg m e)).text, c ≠ '.') ∧
        fractionDigits (__nice_float_to_str (Double.finite neg m e)).text = 0) ∧
      (¬ Double.IsIntegral (Double.finite neg m e) →
        Double.IsIntegral (Double.mul (Double.finite neg m e) (Double.ofInt 10)) →
        ∃ pre frac, (__nice_float_to_str (Double.finite neg m e)).text = pre ++ '.' :: frac ∧
          (∀ c ∈ pre, c ≠ '.') ∧ frac.length = 1 ∧ (∀ c ∈ frac, c.isDigit = true)) ∧
      (¬ Double.IsIntegral (Double.finite neg m e) →
        ¬ Double.IsIntegral (Double.mul (Double.finite neg m e) (Double.ofInt 10)) →
        ∃ pre frac, (__nice_float_to_str (Double.finite neg m e)).text = pre ++ '.' :: frac ∧
          (∀ c ∈ pre, c ≠ '.') ∧ frac.length = 2 ∧ (∀ c ∈ frac, c.isDigit = true))) ∧
    (__nice_float_to_str (Double.finite false 3 0)).text = "3".toList ∧
    (__nice_float_to_str (Double.finite false 5 (-1))).text = "2.5".toList ∧
    (__nice_float_to_str (Double.finite false 7074231776675438 (-51))).text = "3.14".toList := by
  refine ⟨fun neg m e => ⟨fun h => ?_, fun h h10 => ?_, fun h h10 => ?_⟩, by decide!, by decide!,
    by decide!⟩
  · rw [nice_text_integral _ h]
    refine ⟨fun c hc => ?_, fractionDigits_of_no_point _ (fmt_f_zero_no_point neg m e)⟩
    simpa using fmt_f_zero_no_point neg m e c hc
  · rw [nice_text_tenth _ h h10]
    obtain ⟨pre, frac, he, hpre, hlen, hdig⟩ := fmt_f_succ_split 0 neg m e
    exact ⟨pre, frac, he, fun c hc => by simpa using hpre c hc, hlen, hdig⟩
  · rw [nice_text_hundredth _ h h10]
    obtain ⟨pre, frac, he, hpre, hlen, hdig⟩ := fmt_f_succ_split 1 neg m e
    exact ⟨pre, frac, he, fun c hc => by simpa using hpre c hc, hlen, hdig⟩

/-- C5: for every finite value for which neither the value nor the `double`
product `value * 10` is a whole number, the text of `__nice_float_to_str` is
the decimal numeral, with exactly two fraction digits, of `k / 100` for the
integer `k` such that `k / 100` is nearest to the value, the even `k` on a tie
(round half to even); it reads back as `k / 100` and is within 0.005 of the
value. -/
theorem nice_float_rounds_to_hundredth (neg : Bool) (m : Nat) (e : Int)
    (h : ¬ Double.IsIntegral (Double.finite neg m e))
    (h10 : ¬ Double.IsIntegral (Double.mul (Double.finite neg m e) (Double.ofInt 10))) :
    ∃ k : ℤ,
      (__nice_float_to_str (Double.finite neg m e)).text
        = (if neg then ['-'] else []) ++ fmtNat (k.natAbs / 100)
            ++ '.' :: padZeros 2 (fmtNat (k.natAbs % 100)) ∧
      parseDecimal (__nice_float_to_str (Double.finite neg m e)).text = some ((k : ℚ) / 100) ∧
      |(k : ℚ) / 100 - Double.toRat (Double.finite neg m e)| ≤ 5 / 1000 ∧
      (|(k : ℚ) / 100 - Double.toRat (Double.finite neg m e)| = 5 / 1000 → 2 ∣ k) ∧
      ∃ pre frac, (__nice_float_to_str (Double.finite neg m e)).text = pre ++ '.' :: frac ∧
        (∀ c ∈ pre, c ≠ '.') ∧ frac.length = 2 ∧ (∀ c ∈ frac, c.isDigit = true) := by
  rw [nice_text_hundredth _ h h10]
  obtain ⟨k, ht, hpar, hle, htie⟩ := fmt_f_nearest 2 (by decide) neg m e
  have e1 : (10 : ℕ) ^ 2 = 100 := by norm_num
  have e2 : (10 : ℚ) ^ 2 = 100 := by norm_num
  have e3 : 1 / (2 * (100 : ℚ)) = 5 / 1000 := by norm_num
  rw [e1] at ht
  rw [e2] at hpar
  rw [e2, e3] at hle htie
  refine ⟨k, ht, hpar, hle, htie, ?_⟩
  obtain ⟨pre, frac, he, hpre, hlen, hdig⟩ := fmt_f_succ_split 1 neg m e
  exact ⟨pre, frac, he, fun c hc => by simpa using hpre c hc, hlen, hdig⟩

/-- C5 (witness): 0.125, that is `1 * 2^-3`, a tie between 0.12 and 0.13; the
text is `"0.12"`. -/
theorem nice_float_rounds_to_hundredth_witness :
    (∃ k : ℤ,
      (__nice_float_to_str (Double.finite false 1 (-3))).text
        = (if false = true then ['-'] else []) ++ fmtNat (k.natAbs / 100)
            ++ '.' :: padZeros 2 (fmtNat (k.natAbs % 100)) ∧
      parseDecimal (__nice_float_to_str (Double.finite false 1 (-3))).text
        = some ((k : ℚ) / 100) ∧
      |(k : ℚ) / 100 - Double.toRat (Double.finite false 1 (-3))| ≤ 5 / 1000 ∧
      (|(k : ℚ) / 100 - Double.toRat (Double.finite false 1 (-3))| = 5 / 1000 → 2 ∣ k) ∧
      ∃ pre frac, (__nice_float_to_str (Double.finite false 1 (-3))).text
          = pre ++ '.' :: frac ∧
        (∀ c ∈ pre, c ≠ '.') ∧ frac.length = 2 ∧ (∀ c ∈ frac, c.isDigit = true)) ∧
    (__nice_float_to_str (Double.finite false 1 (-3))).text = "0.12".toList :=
  ⟨nice_float_rounds_to_hundredth false 1 (-3)
    ((isIntegral_iff_test _).not.mpr (by decide!))
    ((isIntegral_iff_test _).not.mpr (by decide!)), by decide!⟩

/-- C6 (counterexample): `2^50 + 1/4` is a binary64 value and an exact multiple
of one hundredth; the product by 10 rounds to a whole number, so the text has
one fraction digit, `"1125899906842624.2"`, and does not read back as the
value. -/
theorem nice_float_inexact_at_quarter :
    Double.IsBinary64 (Double.finite false 4503599627370497 (-2)) ∧
    Double.toRat (Double.finite false 4503599627370497 (-2)) * 100
      = ((112589990684262425 : ℤ) : ℚ) ∧
    (__nice_float_to_str (Double.finite false 4503599627370497 (-2))).text
      = "1125899906842624.2".toList ∧
    parseDecimal (__nice_float_to_str (Double.finite false 4503599627370497 (-2))).text
      ≠ some (Double.toRat (Double.finite false 4503599627370497 (-2))) := by
  have ht : (__nice_float_to_str (Double.finite false 4503599627370497 (-2))).text
      = "1125899906842624.2".toList := by decide!
  have hp : parseDecimal "1125899906842624.2".toList = some (11258999068426242 / 10) := by
    decide!
  refine ⟨⟨by decide, by decide, by decide⟩, ?_, ht, ?_⟩
  · norm_num [Double.toRat]
  · rw [ht, hp]
    norm_num [Double.toRat]

/-- C6 (amended): for every finite value that is an exact multiple of one
hundredth and whose magnitude is below `2^52 / 10`, the text of
`__nice_float_to_str` reads back as exactly the value, has at most two fraction
digits, and no numeral with fewer fraction digits equals the value. -/
theorem nice_float_exact_on_hundredths (neg : Bool) (m : Nat) (e : Int)
    (h100 : ∃ k : ℤ, Double.toRat (Double.finite neg m e) * 100 = k)
    (hsmall : |Double.toRat (Double.finite neg m e)| * 10 < 2 ^ 52) :
    parseDecimal (__nice_float_to_str (Double.finite neg m e)).text
      = some (Double.toRat (Double.finite neg m e)) ∧
    fractionDigits (__nice_float_to_str (Double.finite neg m e)).text ≤ 2 ∧
    ∀ j, j < fractionDigits (__nice_float_to_str (Double.finite neg m e)).text →
      ¬ ∃ z : ℤ, Double.toRat (Double.finite neg m e) * (10 : ℚ) ^ j = z := by
  have hd100 : 2 ^ (-e).toNat ∣ m * 2 ^ e.toNat * 10 ^ 2 := by
    have := (toRat_mul_integral_iff neg m e 100).mp (by simpa using h100)
    simpa using this
  by_cases hint : Double.IsIntegral (Double.finite neg m e)
  · -- a whole number: no fraction digit
    have hd1 : 2 ^ (-e).toNat ∣ m * 2 ^ e.toNat * 10 ^ 0 := by
      simpa using (isIntegral_iff_dvd neg m e).mp hint
    rw [nice_text_integral _ hint, fractionDigits_fmt_f, parseDecimal_fmt_f_zero]
    refine ⟨?_, by omega, fun j hj => by omega⟩
    have := scaled_exact 0 neg m e hd1
    simp only [pow_zero, div_one] at this
    rw [this]
  · have hne : e < 0 := by
      by_contra hge
      apply hint
      rw [isIntegral_iff_dvd]
      have : (-e).toNat = 0 := by omega
      rw [this, pow_zero]
      exact one_dvd _
    have hm0 : m ≠ 0 := by
      intro h0
      apply hint
      rw [isIntegral_iff_dvd, h0, zero_mul]
      exact dvd_zero _
    have het : e.toNat = 0 := by omega
    rw [het, pow_zero, mul_one] at hd100
    have hsm : m * 10 < 2 ^ 52 * 2 ^ (-e).toNat := by
      rw [toRat_finite, het, pow_zero, mul_one, abs_mul] at hsmall
      have hs : |(if neg then -1 else 1 : ℚ)| = 1 := by cases neg <;> simp
      have hD : (0 : ℚ) < ((2 ^ (-e).toNat : ℕ) : ℚ) := by positivity
      rw [hs, one_mul, abs_of_nonneg (by positivity), div_mul_eq_mul_div,
        div_lt_iff₀ hD] at hsmall
      exact_mod_cast hsmall
    obtain ⟨q2, e2, hmul, hval⟩ := mul_ten_exact neg m e hne hm0 (by simpa using hd100) hsm
    have hprod : Double.IsIntegral (Double.mul (Double.finite neg m e) (Double.ofInt 10))
        ↔ 2 ^ (-e).toNat ∣ m * 2 ^ e.toNat * 10 ^ 1 := by
      have h1 := toRat_mul_integral_iff neg m e 10
      rw [hmul]
      simp only [pow_one]
      rw [← h1]
      simp only [Double.IsIntegral, Double.toRat]
      have heq : (if neg then -1 else 1 : ℚ) * (q2 : ℚ) * (2 : ℚ) ^ e2
          = (if neg then -1 else 1 : ℚ) * (m : ℚ) * (2 : ℚ) ^ e * ((10 : ℕ) : ℚ) := by
        rw [mul_assoc, hval]
        push_cast
        ring
      rw [heq]
    have hnot0 : ¬ ∃ z : ℤ, Double.toRat (Double.finite neg m e) * (10 : ℚ) ^ 0 = z := by
      simpa [Double.IsIntegral] using hint
    by_cases h10 : Double.IsIntegral (Double.mul (Double.finite neg m e) (Double.ofInt 10))
    · -- the product is whole: one fraction digit
      rw [nice_text_tenth _ hint h10, fractionDigits_fmt_f, parseDecimal_fmt_f 1 (by decide),
        scaled_exact 1 neg m e (hprod.mp h10)]
      refine ⟨rfl, by omega, fun j hj => ?_⟩
      have hj0 : j = 0 := by omega
      rw [hj0]
      exact hnot0
    · -- two fraction digits
      have hd2 : 2 ^ (-e).toNat ∣ m * 2 ^ e.toNat * 10 ^ 2 := by
        rw [het, pow_zero, mul_one]
        exact hd100
      rw [nice_text_hundredth _ hint h10, fractionDigits_fmt_f, parseDecimal_fmt_f 2 (by decide),
        scaled_exact 2 neg m e hd2]
      refine ⟨rfl, le_refl 2, fun j hj => ?_⟩
      have hj01 : j = 0 ∨ j = 1 := by omega
      rcases hj01 with hj0 | hj1
      · rw [hj0]
        exact hnot0
      · rw [hj1]
        intro hz
        apply h10
        rw [hprod]
        have := (toRat_mul_integral_iff neg m e 10).mp (by simpa using hz)
        simpa using this

/-- C6 (witness): 0.25, that is `1 * 2^-2`. -/
theorem nice_float_exact_on_hundredths_witness :
    parseDecimal (__nice_float_to_str (Double.finite false 1 (-2))).text
      = some (Double.toRat (Double.finite false 1 (-2))) ∧
    fractionDigits (__nice_float_to_str (Double.finite false 1 (-2))).text ≤ 2 ∧
    ∀ j, j < fractionDigits (__nice_float_to_str (Double.finite false 1 (-2))).text →
      ¬ ∃ z : ℤ, Double.toRat (Double.finite false 1 (-2)) * (10 : ℚ) ^ j = z :=
  nice_float_exact_on_hundredths false 1 (-2) ⟨25, by norm_num [Double.toRat]⟩
    (by
      have h : Double.toRat (Double.finite false 1 (-2)) = 1 / 4 := by
        norm_num [Double.toRat]
      rw [h, abs_of_pos (by norm_num)]
      norm_num)

/-- C7: for every `int` value `n`, the text of `__int_to_str` is the base-10
numeral of `n`: a `'-'` in front exactly when `n < 0`, then one or more decimal
digits and nothing else, whose value is the magnitude of `n`, and whose first
digit is `'0'` only when `n = 0`, the text then being `"0"`. -/
theorem int_to_str_is_numeral (n : Int) (hlo : -2147483648 ≤ n) (hhi : n ≤ 2147483647) :
    ∃ ds : List Char,
      (__int_to_str n).text = (if n < 0 then '-' :: ds else ds) ∧
      ds ≠ [] ∧ (∀ c ∈ ds, c.isDigit = true) ∧
      decimalValue ds = n.natAbs ∧
      ((__int_to_str n).text.head? = some '-' ↔ n < 0) ∧
      (ds.head? = some '0' → n = 0 ∧ (__int_to_str n).text = ['0']) := by
  obtain ⟨d, rest, he, hd, h0⟩ := fmtNat_head n.natAbs
  refine ⟨fmtNat n.natAbs, ?_, fmtNat_ne_nil _, fmtNat_isDigit _, fmtNat_value _, ?_, ?_⟩
  · rw [int_to_str_text, toInt32_of_range n hlo hhi]; rfl
  · rw [int_to_str_text, toInt32_of_range n hlo hhi]
    unfold fmt_d
    by_cases hn : n < 0
    · simp [hn]
    · simp only [hn, if_false, iff_false, he, List.head?_cons, Option.some.injEq]
      exact digitChar_ne_minus d hd
  · intro hz
    rw [he, List.head?_cons, Option.some.injEq] at hz
    have hd0 : d = 0 := digitChar_eq_zero d hd hz
    have hn0 : n = 0 := by
      have := h0 hd0
      omega
    subst hn0
    exact ⟨rfl, by decide⟩

/-- C7 (witness): the numeral of -42. -/
theorem int_to_str_is_numeral_witness :
    ∃ ds : List Char,
      (__int_to_str (-42)).text = (if (-42 : Int) < 0 then '-' :: ds else ds) ∧
      ds ≠ [] ∧ (∀ c ∈ ds, c.isDigit = true) ∧
      decimalValue ds = (-42 : Int).natAbs ∧
      ((__int_to_str (-42)).text.head? = some '-' ↔ (-42 : Int) < 0) ∧
      (ds.head? = some '0' → (-42 : Int) = 0 ∧ (__int_to_str (-42)).text = ['0']) :=
  int_to_str_is_numeral (-42) (by decide) (by decide)

/-- C8 (counterexample): in `ex_1/main.c` a `double` is not formatted by the
nice-float rule: for 3.14 its `__to_str` gives `"3.140000"`, the nice-float
rule `"3.14"`.  And text held as `const char*`, the type of `y = "hi"` in
`ex_1/main.c` and of `x = "Hello World"` in `ex_1/copy.c`, has no rule in
those two programs. -/
theorem ex1_main_float_is_not_nice :
    (Ex1Main.__to_str (CValue.double Ex2.pi)).map CBuf.text = some "3.140000".toList ∧
    (__nice_float_to_str Ex2.pi).text = "3.14".toList ∧
    Ex1Main.__to_str (CValue.double Ex2.pi) ≠ some (__nice_float_to_str Ex2.pi) ∧
    Ex1Main.__to_str (CValue.constCharPtr (strLit "hi")) = none ∧
    Ex1Copy.__to_str (CValue.constCharPtr (strLit "Hello World")) = none := by
  decide!

/-- C8 (amended): in each of the three programs `__to_str` has no fallback and
selects exactly one function for each C type it lists: the integer rule for
`int`, the boolean rule for `bool` and the pass-through for `char*` in all
three, for `double` the nice-float rule in `ex_2/main.c` and `ex_1/copy.c` but
the six-decimal `%f` rule in `ex_1/main.c`, and for `const char*` the
pass-through in `ex_2/main.c` only.  In `ex_1/main.c` and `ex_1/copy.c` a
`const char*` has no rule, and it is the only kind of argument without one: the
selection is total there over `int`, `double`, `bool` and `char*`, and total
over all five types in `ex_2/main.c`. -/
theorem to_str_dispatch :
    (∀ n : Int, Ex2.__to_str (CValue.int n) = __int_to_str n ∧
      Ex1Copy.__to_str (CValue.int n) = some (__int_to_str n) ∧
      Ex1Main.__to_str (CValue.int n) = some (__int_to_str n)) ∧
    (∀ v : Double, Ex2.__to_str (CValue.double v) = __nice_float_to_str v ∧
      Ex1Copy.__to_str (CValue.double v) = some (__nice_float_to_str v) ∧
      Ex1Main.__to_str (CValue.double v) = some (sprintf (malloc 32) (fmt_f 6 v))) ∧
    (∀ b : Bool, Ex2.__to_str (CValue.bool b) = __bool_to_str b ∧
      Ex1Copy.__to_str (CValue.bool b) = some (__bool_to_str b) ∧
      Ex1Main.__to_str (CValue.bool b) = some (__bool_to_str b)) ∧
    (∀ s : CBuf, Ex2.__to_str (CValue.charPtr s) = __str_to_str s ∧
      Ex1Copy.__to_str (CValue.charPtr s) = some (__str_to_str s) ∧
      Ex1Main.__to_str (CValue.charPtr s) = some (__str_to_str s)) ∧
    (∀ s : CBuf, Ex2.__to_str (CValue.constCharPtr s) = __str_to_str s ∧
      Ex1Copy.__to_str (CValue.constCharPtr s) = none ∧
      Ex1Main.__to_str (CValue.constCharPtr s) = none) ∧
    (∀ x : CValue, Ex1Main.__to_str x = none ↔ ∃ s, x = CValue.constCharPtr s) ∧
    (∀ x : CValue, Ex1Copy.__to_str x = none ↔ ∃ s, x = CValue.constCharPtr s) := by
  refine ⟨fun _ => ⟨rfl, rfl, rfl⟩, fun _ => ⟨rfl, rfl, rfl⟩, fun _ => ⟨rfl, rfl, rfl⟩,
    fun _ => ⟨rfl, rfl, rfl⟩, fun _ => ⟨rfl, rfl, rfl⟩, fun x => ?_, fun x => ?_⟩
  · cases x <;> simp [Ex1Main.__to_str]
  · cases x <;> simp [Ex1Copy.__to_str]

/-- C9 (the code at the failing input): `2^107` is a finite binary64 value and
a whole number; `__nice_float_to_str` writes its 33 digits and a terminator
into the 32 bytes it allocated, past the end of the allocation. -/
theorem nice_float_overflows_malloc :
    Double.IsBinary64 (Double.finite false 4503599627370496 55) ∧
    (__nice_float_to_str (Double.finite false 4503599627370496 55)).text
      = "162259276829213363391578010288128".toList ∧
    (__nice_float_to_str (Double.finite false 4503599627370496 55)).cap = 32 ∧
    (__nice_float_to_str (Double.finite false 4503599627370496 55)).overflow = true := by
  refine ⟨⟨by decide, by decide, by decide⟩, by decide!, by decide!, by decide!⟩

/-- C10: `__str_to_str` returns its argument unchanged, so the string it
designates has the same characters and the same length; `"abc"` gives
`"abc"`. -/
theorem str_to_str_identity :
    (∀ s : CBuf, __str_to_str s = s) ∧
    (∀ s : CBuf, (__str_to_str s).text = s.text ∧
      (__str_to_str s).text.length = s.text.length) ∧
    (__str_to_str (strLit "abc")).text = "abc".toList :=
  ⟨fun _ => rfl, fun _ => ⟨rfl, rfl⟩, by decide⟩

/-- C11: `__bool_to_str` gives exactly `"true"` for true and exactly `"false"`
for false; the two texts differ, so the rule is injective. -/
theorem bool_to_str_tokens :
    __bool_to_str true = strLit "true" ∧
    __bool_to_str false = strLit "false" ∧
    (__bool_to_str true).text = "true".toList ∧
    (__bool_to_str false).text = "false".toList ∧
    (__bool_to_str true).text ≠ (__bool_to_str false).text ∧
    (∀ a b : Bool, (__bool_to_str a).text = (__bool_to_str b).text → a = b) := by
  refine ⟨rfl, rfl, by decide, by decide, by decide, ?_⟩
  intro a b
  cases a <;> cases b <;> decide

/-- C12: whatever the array held before, after the initialisation
`t[0] = '\0'` and before any fragment is appended it holds the empty string,
which is what assembling the empty fragment sequence yields. -/
theorem assemble_empty :
    (∀ garbage : List Char, ((charArray 1024 garbage).write 0 [NUL]).text = []) ∧
    (∀ garbage : List Char, assemble garbage [] = (charArray 1024 garbage).write 0 [NUL]) ∧
    (∀ garbage : List Char, (assemble garbage []).text = "".toList) ∧
    (∀ garbage : List Char, (assemble garbage []).overflow = false) := by
  refine ⟨fun g => init_text _, fun _ => rfl, fun g => ?_, fun g => ?_⟩
  · exact init_text _
  · simp [assemble, CBuf.write, charArray]

/-- C13: for every finite value the `%f` variant `__float_to_str` of
`ex_1/main.c` writes the decimal numeral, with exactly six fraction digits, of
`k / 1000000` for the integer `k` such that `k / 1000000` is nearest to the
value (the even `k` on a tie), whatever the value (3.14 gives `"3.140000"`);
the nice-float variant writes at most two fraction digits, so the two texts
differ on every finite value. -/
theorem percent_f_six_digits :
    (∀ (neg : Bool) (m : Nat) (e : Int),
      (∃ k : ℤ,
        (Ex1Main.__float_to_str (Double.finite neg m e)).text
          = (if neg then ['-'] else []) ++ fmtNat (k.natAbs / 1000000)
              ++ '.' :: padZeros 6 (fmtNat (k.natAbs % 1000000)) ∧
        parseDecimal (Ex1Main.__float_to_str (Double.finite neg m e)).text
          = some ((k : ℚ) / 1000000) ∧
        |(k : ℚ) / 1000000 - Double.toRat (Double.finite neg m e)| ≤ 5 / 10000000 ∧
        (|(k : ℚ) / 1000000 - Double.toRat (Double.finite neg m e)| = 5 / 10000000 →
          2 ∣ k)) ∧
      (∃ pre frac, (Ex1Main.__float_to_str (Double.finite neg m e)).text = pre ++ '.' :: frac ∧
        (∀ c ∈ pre, c ≠ '.') ∧ frac.length = 6 ∧ (∀ c ∈ frac, c.isDigit = true)) ∧
      fractionDigits (Ex1Main.__float_to_str (Double.finite neg m e)).text = 6 ∧
      fractionDigits (__nice_float_to_str (Double.finite neg m e)).text ≤ 2 ∧
      (Ex1Main.__float_to_str (Double.finite neg m e)).text
        ≠ (__nice_float_to_str (Double.finite neg m e)).text ∧
      (Ex1Main.__float_to_str (Double.finite neg m e)).text
        ≠ (Ex2.__float_to_str (Double.finite neg m e)).text) ∧
    (Ex1Main.__float_to_str (Double.finite false 7070651414971679 (-51))).text
      = "3.140000".toList ∧
    (__nice_float_to_str (Double.finite false 7070651414971679 (-51))).text
      = "3.14".toList := by
  refine ⟨fun neg m e => ?_, by decide!, by decide!⟩
  have h6 : fractionDigits (Ex1Main.__float_to_str (Double.finite neg m e)).text = 6 := by
    rw [float_to_str_text_ex1, fractionDigits_fmt_f]
  have h2 := nice_fractionDigits_le neg m e
  have hne : (Ex1Main.__float_to_str (Double.finite neg m e)).text
      ≠ (__nice_float_to_str (Double.finite neg m e)).text := by
    intro heq
    rw [heq] at h6
    omega
  refine ⟨?_, ?_, h6, h2, hne, hne⟩
  · rw [float_to_str_text_ex1]
    obtain ⟨k, ht, hpar, hle, htie⟩ := fmt_f_nearest 6 (by decide) neg m e
    have e1 : (10 : ℕ) ^ 6 = 1000000 := by norm_num
    have e2 : (10 : ℚ) ^ 6 = 1000000 := by norm_num
    have e3 : 1 / (2 * (1000000 : ℚ)) = 5 / 10000000 := by norm_num
    rw [e1] at ht
    rw [e2] at hpar
    rw [e2, e3] at hle htie
    exact ⟨k, ht, hpar, hle, htie⟩
  · rw [float_to_str_text_ex1]
    obtain ⟨pre, frac, he, hpre, hlen, hdig⟩ := fmt_f_succ_split 5 neg m e
    exact ⟨pre, frac, he, fun c hc => by simpa using hpre c hc, hlen, hdig⟩

/-- C14: the third test of `__nice_float_to_str`, on `value * 100`, does not
change the result: for every `double`, finite or not, the four-branch function
returns the same buffer, hence the same text, as the three-rule policy. -/
theorem third_test_is_redundant :
    (∀ value : Double, __nice_float_to_str value = niceFloatThreeRules value) ∧
    (∀ value : Double, (__nice_float_to_str value).text = (niceFloatThreeRules value).text) :=
  ⟨nice_eq_three_rules, fun value => by rw [nice_eq_three_rules]⟩

/-- C15: for every value passed to `__int_to_str`, once converted to the 32-bit
`int`, the text has at most 11 characters, so the text and its terminator fit
the 32 bytes allocated and the write stays inside them; the text of INT_MIN,
`"-2147483648"`, has exactly 11. -/
theorem int_to_str_fits :
    (∀ n : Int, (__int_to_str n).text.length ≤ 11 ∧
      (__int_to_str n).text.length + 1 ≤ (__int_to_str n).cap ∧
      (__int_to_str n).cap = 32 ∧
      (__int_to_str n).overflow = false) ∧
    (__int_to_str (-2147483648)).text = "-2147483648".toList ∧
    (__int_to_str (-2147483648)).text.length = 11 := by
  refine ⟨fun n => ?_, by decide, by decide⟩
  obtain ⟨hlo, hhi⟩ := toInt32_range n
  have hl := fmt_d_length_le (toInt32 n) hlo hhi
  have hcap : (__int_to_str n).cap = 32 := rfl
  refine ⟨?_, ?_, hcap, ?_⟩
  · rw [int_to_str_text]; exact hl
  · rw [int_to_str_text, hcap]; omega
  · simp only [__int_to_str]
    rw [sprintf_malloc_overflow]
    simp only [decide_eq_false_iff_not, not_lt]
    omega

/-- C16: when the fragments' texts total at most 1023 characters (the sequence
may have one fragment, many, or none), no statement of the assembly writes
outside the `char[1024]` array, after every statement the array holds a
terminated string, the strings held after the successive statements are the
concatenations of the fragments appended so far, the last state is the
assembled array, and its length is the sum of the fragments' lengths. -/
theorem assemble_steps_in_bounds (garbage : List Char) (frags : List Fragment)
    (hfit : (concatText frags).length ≤ 1023) :
    (∀ u ∈ assembleTrace garbage frags,
      u.overflow = false ∧ u.cap = 1024 ∧ Terminated u) ∧
    (assembleTrace garbage frags).map CBuf.text = frags.inits.map concatText ∧
    (assembleTrace garbage frags).getLast? = some (assemble garbage frags) ∧
    (assemble garbage frags).overflow = false ∧
    (assemble garbage frags).text.length = (frags.map (fun f => f.text.length)).sum := by
  refine ⟨fun u hu => ?_, assembleTrace_text garbage frags, assembleTrace_last garbage frags,
    ?_, ?_⟩
  · obtain ⟨⟨hcap, hov⟩, hnul, hlen⟩ := assembleTrace_states garbage frags u hu
    refine ⟨?_, hcap, hnul, by rw [hcap]; omega⟩
    rw [hov]
    simp only [decide_eq_false_iff_not, not_lt]
    omega
  · rw [assemble_overflow_eq]
    simp only [decide_eq_false_iff_not, not_lt]
    omega
  · rw [assemble_text_eq, concatText_length]

/-- C16 (witness): the third assembly of `main`, `"Pi: "` followed by 3.14. -/
theorem assemble_steps_in_bounds_witness :
    (concatText [Fragment.literal "Pi: ", Fragment.computed (CValue.double Ex2.pi)]).length
      ≤ 1023 ∧
    (assembleTrace [] [Fragment.literal "Pi: ", Fragment.computed (CValue.double Ex2.pi)]).map
        CBuf.text
      = [Fragment.literal "Pi: ", Fragment.computed (CValue.double Ex2.pi)].inits.map
        concatText :=
  ⟨by decide!, (assemble_steps_in_bounds [] _ (by decide!)).2.1⟩

/-- C17: the choice of the number of digits is made on the value before it is
rounded: for the binary64 values nearest to 2.999 and to 0.001, neither a whole
number, the text is `"3.00"` and `"0.00"`, two fraction digits both `'0'`,
although the shorter numerals `"3"` and `"0"` read back as the same numbers. -/
theorem nice_float_keeps_zero_digits :
    ¬ Double.IsIntegral (Double.finite false 6753147641242059 (-51)) ∧
    (__nice_float_to_str (Double.finite false 6753147641242059 (-51))).text = "3.00".toList ∧
    parseDecimal "3.00".toList = parseDecimal "3".toList ∧
    ¬ Double.IsIntegral (Double.finite false 4611686018427388 (-62)) ∧
    (__nice_float_to_str (Double.finite false 4611686018427388 (-62))).text = "0.00".toList ∧
    parseDecimal "0.00".toList = parseDecimal "0".toList := by
  refine ⟨?_, by decide!, by decide!, ?_, by decide!, by decide!⟩
  · rw [isIntegral_iff_dvd]; decide!
  · rw [isIntegral_iff_dvd]; decide!

end Wolfram
